import Mathlib

/-!
# Verification of the sitemap generator's crawl engine and URL handling

This file is a shallow embedding of `src/sitemap_generator.py` (and the parts
of CPython 3.11's `urllib.parse` that it calls) in Lean 4, together with
theorems settling the specification claims about it.

Strings are modelled as `List Char` (Python `str` is a sequence of code
points).  Python functions that can raise are modelled with `Option` (where
`none` is a raised exception).  Two pieces of CPython behaviour that live far
outside the repository are abstracted as boolean-valued parameters whose exact
value never matters for the claims (they are pure functions of their input,
which is all the proofs use):

* `hostOk` models `urllib.parse._check_bracketed_host` (validation of a
  bracketed IPv6/IPvFuture host; consulted only when the authority contains
  `'['`);
* `netlocOk` models the non-ASCII branch of `urllib.parse._checknetloc`
  (NFKC-normalization check; the ASCII fast path is modelled concretely).
-/

set_option maxHeartbeats 1600000

namespace SitemapGen

/-! ## Character classes (from `urllib.parse`) -/

/-- `scheme_chars` in `urllib.parse`: ASCII letters, digits, `+`, `-`, `.`. -/
def isSchemeChar (c : Char) : Bool :=
  decide ('a' ≤ c ∧ c ≤ 'z') || decide ('A' ≤ c ∧ c ≤ 'Z') ||
  decide ('0' ≤ c ∧ c ≤ '9') || c == '+' || c == '-' || c == '.'

/-- `str.isascii() and str.isalpha()` applied to one character. -/
def isAsciiAlpha (c : Char) : Bool :=
  decide ('a' ≤ c ∧ c ≤ 'z') || decide ('A' ≤ c ∧ c ≤ 'Z')

/-- `_WHATWG_C0_CONTROL_OR_SPACE`: the code points `U+0000`–`U+0020`. -/
def isC0OrSpace (c : Char) : Bool := c.toNat ≤ 0x20

/-- `_UNSAFE_URL_BYTES_TO_REMOVE`: tab, carriage return, newline. -/
def isUnsafeUrlByte (c : Char) : Bool := c == '\t' || c == '\r' || c == '\n'

/-- ASCII lower-casing; `str.lower()` agrees with this on the validated
ASCII-only scheme component, the only place the code lower-cases. -/
def asciiLower (c : Char) : Char :=
  if decide ('A' ≤ c ∧ c ≤ 'Z') then Char.ofNat (c.toNat + 32) else c

/-! ## List-splitting primitives (`str.split(c, 1)`, `str.partition`, …) -/

/-- Split at the first occurrence of `c`: `splitFirst c l = some (a, b)` iff
`l = a ++ c :: b` with `c ∉ a`; `none` iff `c ∉ l`. -/
def splitFirst (c : Char) : List Char → Option (List Char × List Char)
  | [] => none
  | x :: xs =>
    if x = c then some ([], xs)
    else match splitFirst c xs with
      | none => none
      | some (a, b) => some (x :: a, b)

/-- Split at the last occurrence of `c` (used for `str.rfind('/')`). -/
def splitLast (c : Char) (l : List Char) : Option (List Char × List Char) :=
  match splitFirst c l.reverse with
  | none => none
  | some (a, b) => some (b.reverse, a.reverse)

/-- `str.split(c)`: always returns at least one (possibly empty) piece. -/
def splitAll (c : Char) : List Char → List (List Char)
  | [] => [[]]
  | x :: xs =>
    if x = c then [] :: splitAll c xs
    else match splitAll c xs with
      | [] => [[x]]
      | h :: t => (x :: h) :: t

/-! ## `urllib.parse` scheme tables (CPython 3.11.6) -/

def usesRelative : List (List Char) :=
  [[], "ftp".toList, "http".toList, "gopher".toList, "nntp".toList,
   "imap".toList, "wais".toList, "file".toList, "https".toList,
   "shttp".toList, "mms".toList, "prospero".toList, "rtsp".toList,
   "rtsps".toList, "rtspu".toList, "sftp".toList, "svn".toList,
   "svn+ssh".toList, "ws".toList, "wss".toList]

def usesNetloc : List (List Char) :=
  [[], "ftp".toList, "http".toList, "gopher".toList, "nntp".toList,
   "telnet".toList, "imap".toList, "wais".toList, "file".toList,
   "mms".toList, "https".toList, "shttp".toList, "snews".toList,
   "prospero".toList, "rtsp".toList, "rtsps".toList, "rtspu".toList,
   "rsync".toList, "svn".toList, "svn+ssh".toList, "sftp".toList,
   "nfs".toList, "git".toList, "git+ssh".toList, "ws".toList, "wss".toList]

def usesParams : List (List Char) :=
  [[], "ftp".toList, "hdl".toList, "prospero".toList, "http".toList,
   "imap".toList, "https".toList, "shttp".toList, "rtsp".toList,
   "rtsps".toList, "rtspu".toList, "sip".toList, "sips".toList,
   "mms".toList, "sftp".toList, "tel".toList]

/-! ## `urlsplit` / `urlparse` -/

/-- The five components returned by `urlsplit`. -/
structure SplitParts where
  scheme : List Char
  netloc : List Char
  path : List Char
  query : List Char
  fragment : List Char
  deriving DecidableEq, Repr

/-- The six components returned by `urlparse`. -/
structure UrlParts where
  scheme : List Char
  netloc : List Char
  path : List Char
  params : List Char
  query : List Char
  fragment : List Char
  deriving DecidableEq, Repr

/-- The WHATWG pre-processing at the top of `urlsplit`: `lstrip` of C0
controls and space, then removal of tab/CR/LF everywhere. -/
def stripUrl (u : List Char) : List Char :=
  (u.dropWhile isC0OrSpace).filter (fun c => !isUnsafeUrlByte c)

/-- `strip` (both ends) of C0 controls and space, then tab/CR/LF removal;
applied to the default-scheme argument of `urlsplit`. -/
def stripScheme (s : List Char) : List Char :=
  (((s.dropWhile isC0OrSpace).reverse.dropWhile isC0OrSpace).reverse).filter
    (fun c => !isUnsafeUrlByte c)

/-- The scheme-recognition step of `urlsplit`: the text before the first `:`
must be nonempty, start with an ASCII letter and consist of `scheme_chars`;
it is lower-cased.  Returns the scheme and the rest of the URL. -/
def detectScheme (url : List Char) : Option (List Char × List Char) :=
  match splitFirst ':' url with
  | none => none
  | some (pre, post) =>
    match pre with
    | [] => none
    | c0 :: rest =>
      if isAsciiAlpha c0 && (c0 :: rest).all isSchemeChar then
        some ((c0 :: rest).map asciiLower, post)
      else none

/-- Delimiters ending the authority in `_splitnetloc`. -/
def isNetlocDelim (c : Char) : Bool := c == '/' || c == '?' || c == '#'

/-- `_splitnetloc(url, 2)` applied to the text after the `"//"`. -/
def splitnetloc (s : List Char) : List Char × List Char :=
  (s.takeWhile (fun c => !isNetlocDelim c), s.dropWhile (fun c => !isNetlocDelim c))

/-- `netloc.partition('[')[2].partition(']')[0]`. -/
def bracketedHost (n : List Char) : List Char :=
  match splitFirst '[' n with
  | none => []
  | some (_, after) =>
    match splitFirst ']' after with
    | none => after
    | some (b, _) => b

/-- `_checknetloc`: ASCII (or empty) authorities always pass; otherwise the
NFKC check, abstracted by `netlocOk`, decides. -/
def checknetloc (netlocOk : List Char → Bool) (n : List Char) : Bool :=
  if n = [] || n.all (fun c => c.toNat ≤ 0x7f) then true else netlocOk n

/-- The fragment/query splitting tail of `urlsplit` (with
`allow_fragments=True`, the only way the generator calls it). -/
def splitFragQuery (rest : List Char) : List Char × List Char × List Char :=
  let fr := match splitFirst '#' rest with
    | none => (rest, ([] : List Char))
    | some (a, b) => (a, b)
  match splitFirst '?' fr.1 with
  | none => (fr.1, [], fr.2)
  | some (a, b) => (a, b, fr.2)

/-- `urlsplit(url, scheme=default)` from CPython 3.11.6; `none` models a
raised `ValueError`. -/
def urlsplit (hostOk netlocOk : List Char → Bool) (default url0 : List Char) :
    Option SplitParts :=
  let url := stripUrl url0
  let ds := stripScheme default
  let sr := match detectScheme url with
    | some (s, r) => (s, r)
    | none => (ds, url)
  let scheme := sr.1
  if sr.2.take 2 = ['/', '/'] then
    let nl := splitnetloc (sr.2.drop 2)
    let netloc := nl.1
    if netloc.contains '[' != netloc.contains ']' then none
    else if netloc.contains '[' && netloc.contains ']' &&
        !hostOk (bracketedHost netloc) then none
    else
      let pqf := splitFragQuery nl.2
      if checknetloc netlocOk netloc then
        some ⟨scheme, netloc, pqf.1, pqf.2.1, pqf.2.2⟩
      else none
  else
    let pqf := splitFragQuery sr.2
    some ⟨scheme, [], pqf.1, pqf.2.1, pqf.2.2⟩

/-- `_splitparams` (total model; the `-1` branch of `url.find(';')`, which
slices as `url[:-1], url[0:]`, is kept although `urlparse` only calls
`_splitparams` when a semicolon is present). -/
def splitparams (path : List Char) : List Char × List Char :=
  match splitLast '/' path with
  | some (p, seg) =>
    (match splitFirst ';' seg with
     | none => (path, [])
     | some (a, b) => (p ++ '/' :: a, b))
  | none =>
    match splitFirst ';' path with
    | none => (path.dropLast, path)
    | some (a, b) => (a, b)

/-- The parameter-splitting step of `urlparse`. -/
def paramSplit (scheme path : List Char) : List Char × List Char :=
  if scheme ∈ usesParams ∧ ';' ∈ path then splitparams path else (path, [])

/-- `urlparse(url, scheme=default)`. -/
def urlparse (hostOk netlocOk : List Char → Bool) (default url : List Char) :
    Option UrlParts :=
  (urlsplit hostOk netlocOk default url).map fun sp =>
    let pp := paramSplit sp.scheme sp.path
    ⟨sp.scheme, sp.netloc, pp.1, pp.2, sp.query, sp.fragment⟩

/-! ## `urlunsplit` / `urlunparse` -/

/-- `urlunsplit` from CPython 3.11.6 (note: the `//` is re-inserted when the
authority is nonempty, or when the scheme uses an authority and the path does
not already begin with `//`). -/
def urlunsplit (scheme netloc url query fragment : List Char) : List Char :=
  let u1 :=
    if netloc ≠ [] ∨ (scheme ≠ [] ∧ scheme ∈ usesNetloc ∧ url.take 2 ≠ ['/', '/'])
    then '/' :: '/' :: netloc ++
      (if url ≠ [] ∧ url.head? ≠ some '/' then '/' :: url else url)
    else url
  let u2 := if scheme ≠ [] then scheme ++ ':' :: u1 else u1
  let u3 := if query ≠ [] then u2 ++ '?' :: query else u2
  if fragment ≠ [] then u3 ++ '#' :: fragment else u3

/-- Re-attachment of `params` to the path in `urlunparse`. -/
def recombine (path params : List Char) : List Char :=
  if params ≠ [] then path ++ ';' :: params else path

/-- `urlunparse`. -/
def urlunparse (scheme netloc path params query fragment : List Char) :
    List Char :=
  urlunsplit scheme netloc (recombine path params) query fragment

/-! ## `SitemapGenerator._normalize_url` -/

/-- `_normalize_url` (`src/sitemap_generator.py:84`): parse, then rebuild with
the query and fragment components replaced by the empty string.  `none`
models the `ValueError` that `urlparse` can raise. -/
def normalize_url (hostOk netlocOk : List Char → Bool) (url : List Char) :
    Option (List Char) :=
  (urlparse hostOk netlocOk [] url).map fun p =>
    urlunparse p.scheme p.netloc p.path p.params [] []

/-- Trivially-true instantiations of the two abstracted CPython validators,
used to run the model on concrete inputs (which never reach either check). -/
def anyHost : List Char → Bool := fun _ => true

/-! ### Sanity checks of the URL model against CPython 3.11.6 -/

example : urlparse anyHost anyHost [] "HTTP://Ex.Com/a;p?q#f".toList =
    some ⟨"http".toList, "Ex.Com".toList, "/a".toList, "p".toList,
      "q".toList, "f".toList⟩ := by decide

example : urlparse anyHost anyHost [] "a;".toList =
    some ⟨[], [], "a".toList, [], [], []⟩ := by decide

example : urlparse anyHost anyHost [] "/x;y/z;".toList =
    some ⟨[], [], "/x;y/z".toList, [], [], []⟩ := by decide

example : urlparse anyHost anyHost [] "//h;x/p".toList =
    some ⟨[], "h;x".toList, "/p".toList, [], [], []⟩ := by decide

example : urlparse anyHost anyHost [] "http:////x".toList =
    some ⟨"http".toList, [], "//x".toList, [], [], []⟩ := by decide

example : urlparse anyHost anyHost [] "//[x".toList = none := by decide

example : normalize_url anyHost anyHost " http://h/p".toList =
    some "http://h/p".toList := by decide

example : normalize_url anyHost anyHost "http:a".toList =
    some "http:///a".toList := by decide

example : normalize_url anyHost anyHost "http:////x".toList =
    some "http://x".toList := by decide

example : normalize_url anyHost anyHost "/////a".toList =
    some "///a".toList := by decide

example : normalize_url anyHost anyHost "///a".toList =
    some "/a".toList := by decide

/-! ## `urljoin` -/

/-- `segments[1:-1] = filter(None, segments[1:-1])`: drop empty segments,
keeping the first and last elements untouched. -/
def filterMiddle (segs : List (List Char)) : List (List Char) :=
  match segs with
  | [] => []
  | [x] => [x]
  | x :: xs =>
    match xs.reverse with
    | [] => [x]
    | last :: midRev =>
      x :: ((midRev.reverse.filter (fun s => !s.isEmpty)) ++ [last])

/-- The `for seg in segments` resolution loop of `urljoin` (`'..'` pops,
`'.'` is dropped, anything else is appended; popping an empty stack is a
no-op). -/
def resolveSegments (segments : List (List Char)) : List (List Char) :=
  segments.foldl
    (fun acc seg =>
      if seg = "..".toList then acc.dropLast
      else if seg = ".".toList then acc
      else acc ++ [seg]) []

/-- `urljoin(base, url)` from CPython 3.11.6; `none` models a raised
`ValueError` from either parse. -/
def urljoin (hostOk netlocOk : List Char → Bool) (base url : List Char) :
    Option (List Char) :=
  if base = [] then some url
  else if url = [] then some base
  else
    match urlparse hostOk netlocOk [] base with
    | none => none
    | some b =>
      match urlparse hostOk netlocOk b.scheme url with
      | none => none
      | some r =>
        if r.scheme ≠ b.scheme ∨ r.scheme ∉ usesRelative then some url
        else if r.scheme ∈ usesNetloc ∧ r.netloc ≠ [] then
          some (urlunparse r.scheme r.netloc r.path r.params r.query r.fragment)
        else
          let netloc := if r.scheme ∈ usesNetloc then b.netloc else r.netloc
          if r.path = [] ∧ r.params = [] then
            let query := if r.query = [] then b.query else r.query
            some (urlunparse r.scheme netloc b.path b.params query r.fragment)
          else
            let baseParts0 := splitAll '/' b.path
            let baseParts := if baseParts0.getLast? ≠ some [] then
                baseParts0.dropLast else baseParts0
            let segments :=
              if r.path.take 1 = ['/'] then splitAll '/' r.path
              else filterMiddle (baseParts ++ splitAll '/' r.path)
            let resolved0 := resolveSegments segments
            let resolved :=
              if segments.getLast? = some ".".toList ∨
                 segments.getLast? = some "..".toList
              then resolved0 ++ [[]] else resolved0
            let joined := List.intercalate ['/'] resolved
            let path := if joined = [] then ['/'] else joined
            some (urlunparse r.scheme netloc path r.params r.query r.fragment)

/-! ## `SitemapGenerator.extract_links`

`LinkParser` (an `html.parser.HTMLParser`) collects the non-empty `href`
attribute values of `<a>` start tags; the HTML parsing itself is outside the
embedding, so `extract_links` is modelled as a function of the collected
`href` list (`parser.links`) rather than of the raw bytes. -/

/-- One iteration of the `for href in parser.links` loop body
(`src/sitemap_generator.py:167`).  The outer `some` layer is exception
tracking (`none` = the body raised); the inner layer is `some u` when `u`
was appended to `links` and `none` when the `href` was skipped or filtered
out by the domain check. -/
def processHref (hostOk netlocOk : List Char → Bool)
    (domain baseUrl href : List Char) : Option (Option (List Char)) :=
  if href = [] ∨ href.take 1 = ['#'] ∨ href.take 7 = "mailto:".toList then
    some none
  else do
    let full ← urljoin hostOk netlocOk baseUrl href
    let norm ← normalize_url hostOk netlocOk full
    let p ← urlparse hostOk netlocOk [] norm
    pure (if p.netloc = domain then some norm else none)

/-- The loop of `extract_links`, threading the exception state: if any
iteration raises, the whole loop raises (and the caller's `except` will
discard the partial list). -/
def extractLinksGo (hostOk netlocOk : List Char → Bool)
    (domain baseUrl : List Char) : List (List Char) →
    Option (List (List Char))
  | [] => some []
  | h :: t =>
    match processHref hostOk netlocOk domain baseUrl h with
    | none => none
    | some o =>
      match extractLinksGo hostOk netlocOk domain baseUrl t with
      | none => none
      | some rest =>
        some (match o with
          | none => rest
          | some u => u :: rest)

/-- `extract_links` (`src/sitemap_generator.py:160`): build the list of
normalized same-domain link targets; any exception yields `[]`. -/
def extract_links (hostOk netlocOk : List Char → Bool) (domain : List Char)
    (hrefs : List (List Char)) (baseUrl : List Char) : List (List Char) :=
  match extractLinksGo hostOk netlocOk domain baseUrl hrefs with
  | none => []
  | some l => l

/-! ### Sanity checks of `urljoin` / `extract_links` against CPython -/

example : urljoin anyHost anyHost "https://www.example.com/".toList
    "/a".toList = some "https://www.example.com/a".toList := by decide

example : urljoin anyHost anyHost "https://www.example.com/".toList
    "ftp://www.example.com/x".toList =
    some "ftp://www.example.com/x".toList := by decide

example : urljoin anyHost anyHost "https://x.test/a/b".toList
    "../c".toList = some "https://x.test/c".toList := by decide

/-! ## `SitemapGenerator.fetch_page` -/

/-- The observable part of a `urllib.request` response: HTTP status, body and
optional `Last-Modified` header.  The body type is abstract (the crawl model
instantiates it with the link list the HTML parser would extract). -/
structure HttpResponse (α : Type) where
  status : Nat
  content : α
  lastModified : Option (List Char)

/-- `fetch_page` (`src/sitemap_generator.py:132`).  The `resp` argument is
`none` when `urlopen` raised (`URLError`/`HTTPError`); `parsedate` models
`email.utils.parsedate_to_datetime`, with `none` for a raised
`ValueError`/`TypeError`; `now` models `datetime.now(timezone.utc)`.
Timestamps are modelled as integers. -/
def fetch_page {α : Type} (parsedate : List Char → Option Int) (now : Int)
    (resp : Option (HttpResponse α)) : Option (α × Int) :=
  match resp with
  | none => none
  | some r =>
    if r.status ≠ 200 then none
    else some (r.content,
      match r.lastModified with
      | none => now
      | some s =>
        if s = [] then now
        else match parsedate s with
          | none => now
          | some t => t)

/-! ## `SitemapGenerator.can_fetch` -/

/-- `can_fetch` (`src/sitemap_generator.py:113`).  `rp` is the robots parser
handle: `none` when no policy was loaded; otherwise a rule evaluator taking
the user agent and the URL, where the result `none` models an exception
raised by `RobotFileParser.can_fetch`. -/
def can_fetch (rp : Option (List Char → List Char → Option Bool))
    (userAgent url : List Char) : Bool :=
  match rp with
  | none => true
  | some evalRule =>
    match evalRule userAgent url with
    | some b => b
    | none => true

/-! ## The crawl engine

`crawl_page` (`src/sitemap_generator.py:180`) and the dispatch loop of
`generate_sitemap` (`src/sitemap_generator.py:209`) are modelled as a
small-step transition system over a shared state, so that every interleaving
of the worker threads is covered.  Each transition is one atomic action:

* the `with self.lock` block at lines 186–189 (the membership test and the
  insertion into `visited_urls`) is a single transition, exactly because the
  code performs both under one lock;
* the `fetch_page` call runs outside the lock, so it is its own transition;
* `process_page` (append to the sitemap, again under the lock) together with
  the link extraction and the `depth + 1 <= MAX_DEPTH` enqueue filter of
  `generate_sitemap` form the completion transition of a successful task.
  (Spawned tasks are inert `ready` tasks, so making them available at
  completion time only adds schedules relative to the batched dispatch of
  the implementation; all theorems below are safety properties quantified
  over every schedule.)

A ghost `events` trace records fetches, recordings and time-filter
rejections with the depth at which they happened; it has no influence on
the dynamics. -/

/-- The per-task program counter of `crawl_page`. -/
inductive Phase where
  | ready
  | claimed
  | fetched (hrefs : List (List Char)) (lastmod : Int)
  | done
  deriving DecidableEq

/-- A frontier item together with its progress through `crawl_page`. -/
structure Task where
  url : List Char
  depth : Int
  phase : Phase
  deriving DecidableEq

/-- Ghost trace entries (instrumentation only). -/
inductive CrawlEvent where
  | fetch (url : List Char) (depth : Int)
  | record (url : List Char) (depth : Int) (lastmod : Int)
  | filteredOut (url : List Char) (depth : Int) (lastmod : Int)
  deriving DecidableEq

/-- The shared crawl state: the task pool, `visited_urls`, the sitemap
accumulator (`urlset` as a list of `(loc, lastmod)` entries in insertion
order) and the ghost trace. -/
structure CrawlState where
  tasks : List Task
  visited : List (List Char)
  sitemap : List (List Char × Int)
  events : List CrawlEvent
  deriving DecidableEq

/-- The configuration read from `config.py` (plus the two abstracted
CPython validators and the robots evaluator). -/
structure Config where
  domain : List Char
  startUrl : List Char
  maxDepth : Int
  useTimeFilter : Bool
  timeFilterThreshold : Int
  userAgent : List Char
  robots : Option (List Char → List Char → Option Bool)
  hostOk : List Char → Bool
  netlocOk : List Char → Bool

/-- The network, as `crawl_page` observes it through `fetch_page` +
`extract_links`: per URL, either a failure (`none`) or the pair of the href
list its content yields and its last-modification timestamp. -/
def FetchEnv : Type := List Char → Option (List (List Char) × Int)

/-- The guard at `src/sitemap_generator.py:182` (negated): the depth is in
bounds and robots.txt admits the URL. -/
def crawlAdmits (cfg : Config) (u : List Char) (d : Int) : Prop :=
  d ≤ cfg.maxDepth ∧ can_fetch cfg.robots cfg.userAgent u = true

instance (cfg : Config) (u : List Char) (d : Int) :
    Decidable (crawlAdmits cfg u d) := by
  unfold crawlAdmits; infer_instance

/-- The time-filter test at `src/sitemap_generator.py:199`. -/
def timeRejected (cfg : Config) (lm : Int) : Bool :=
  cfg.useTimeFilter && decide (lm ≤ cfg.timeFilterThreshold)

/-- The tasks enqueued by `generate_sitemap` from the links returned by a
completed `crawl_page` (`src/sitemap_generator.py:234`). -/
def spawnTasks (cfg : Config) (hrefs : List (List Char)) (u : List Char)
    (d : Int) : List Task :=
  if d + 1 ≤ cfg.maxDepth then
    (extract_links cfg.hostOk cfg.netlocOk cfg.domain hrefs u).map
      (fun l => ⟨l, d + 1, .ready⟩)
  else []

/-- One atomic transition of one worker. -/
inductive Step (cfg : Config) (env : FetchEnv) : CrawlState → CrawlState → Prop
  | reject (pre post : List Task) (u : List Char) (d : Int)
      (vis : List (List Char)) (sm : List (List Char × Int))
      (ev : List CrawlEvent) :
      ¬ crawlAdmits cfg u d →
      Step cfg env ⟨pre ++ ⟨u, d, .ready⟩ :: post, vis, sm, ev⟩
        ⟨pre ++ ⟨u, d, .done⟩ :: post, vis, sm, ev⟩
  | skipVisited (pre post : List Task) (u : List Char) (d : Int)
      (vis : List (List Char)) (sm : List (List Char × Int))
      (ev : List CrawlEvent) :
      crawlAdmits cfg u d → u ∈ vis →
      Step cfg env ⟨pre ++ ⟨u, d, .ready⟩ :: post, vis, sm, ev⟩
        ⟨pre ++ ⟨u, d, .done⟩ :: post, vis, sm, ev⟩
  | claim (pre post : List Task) (u : List Char) (d : Int)
      (vis : List (List Char)) (sm : List (List Char × Int))
      (ev : List CrawlEvent) :
      crawlAdmits cfg u d → u ∉ vis →
      Step cfg env ⟨pre ++ ⟨u, d, .ready⟩ :: post, vis, sm, ev⟩
        ⟨pre ++ ⟨u, d, .claimed⟩ :: post, u :: vis, sm, ev⟩
  | fetchFail (pre post : List Task) (u : List Char) (d : Int)
      (vis : List (List Char)) (sm : List (List Char × Int))
      (ev : List CrawlEvent) :
      env u = none →
      Step cfg env ⟨pre ++ ⟨u, d, .claimed⟩ :: post, vis, sm, ev⟩
        ⟨pre ++ ⟨u, d, .done⟩ :: post, vis, sm, ev ++ [.fetch u d]⟩
  | fetchOk (pre post : List Task) (u : List Char) (d : Int)
      (hrefs : List (List Char)) (lm : Int)
      (vis : List (List Char)) (sm : List (List Char × Int))
      (ev : List CrawlEvent) :
      env u = some (hrefs, lm) →
      Step cfg env ⟨pre ++ ⟨u, d, .claimed⟩ :: post, vis, sm, ev⟩
        ⟨pre ++ ⟨u, d, .fetched hrefs lm⟩ :: post, vis, sm, ev ++ [.fetch u d]⟩
  | filtered (pre post : List Task) (u : List Char) (d : Int)
      (hrefs : List (List Char)) (lm : Int)
      (vis : List (List Char)) (sm : List (List Char × Int))
      (ev : List CrawlEvent) :
      timeRejected cfg lm = true →
      Step cfg env ⟨pre ++ ⟨u, d, .fetched hrefs lm⟩ :: post, vis, sm, ev⟩
        ⟨pre ++ ⟨u, d, .done⟩ :: post, vis, sm, ev ++ [.filteredOut u d lm]⟩
  | record (pre post : List Task) (u : List Char) (d : Int)
      (hrefs : List (List Char)) (lm : Int)
      (vis : List (List Char)) (sm : List (List Char × Int))
      (ev : List CrawlEvent) :
      timeRejected cfg lm = false →
      Step cfg env ⟨pre ++ ⟨u, d, .fetched hrefs lm⟩ :: post, vis, sm, ev⟩
        ⟨(pre ++ ⟨u, d, .done⟩ :: post) ++ spawnTasks cfg hrefs u d,
          vis, sm ++ [(u, lm)], ev ++ [.record u d lm]⟩

/-- The initial state of `generate_sitemap`: the frontier holds
`(START_URL, 0)` and everything else is empty. -/
def initState (cfg : Config) : CrawlState :=
  ⟨[⟨cfg.startUrl, 0, .ready⟩], [], [], []⟩

/-- Reachability of a crawl state under some interleaving of workers. -/
inductive Reach (cfg : Config) (env : FetchEnv) : CrawlState → Prop
  | init : Reach cfg env (initState cfg)
  | step {s s' : CrawlState} : Reach cfg env s → Step cfg env s s' →
      Reach cfg env s'

/-! ## Crawl-state invariants -/

/-- A task that has won the visited-set insertion but has not yet reached a
terminal phase: it may still append to the sitemap. -/
def isWriter : Phase → Bool
  | .claimed => true
  | .fetched _ _ => true
  | _ => false

/-- A task between the visited-set insertion and the fetch. -/
def isClaimed : Phase → Bool
  | .claimed => true
  | _ => false

/-- Number of live writer tasks for a given URL. -/
def writerCount (ts : List Task) (u : List Char) : Nat :=
  (ts.filter (fun t => decide (t.url = u) && isWriter t.phase)).length

/-- Number of claimed (not yet fetched) tasks for a given URL. -/
def claimedCount (ts : List Task) (u : List Char) : Nat :=
  (ts.filter (fun t => decide (t.url = u) && isClaimed t.phase)).length

/-- URLs of the fetches performed so far (ghost trace projection). -/
def fetchedUrls (ev : List CrawlEvent) : List (List Char) :=
  ev.filterMap (fun e => match e with | .fetch u _ => some u | _ => none)

/-- The domain test `urlparse(normalized_url).netloc == DOMAIN` of
`src/sitemap_generator.py:172`, as a predicate on a URL. -/
def hostMatches (hostOk netlocOk : List Char → Bool) (domain u : List Char) :
    Bool :=
  match urlparse hostOk netlocOk [] u with
  | some p => p.netloc == domain
  | none => false

theorem writerCount_append (ts₁ ts₂ : List Task) (u : List Char) :
    writerCount (ts₁ ++ ts₂) u = writerCount ts₁ u + writerCount ts₂ u := by
  simp [writerCount, List.filter_append]

theorem claimedCount_append (ts₁ ts₂ : List Task) (u : List Char) :
    claimedCount (ts₁ ++ ts₂) u = claimedCount ts₁ u + claimedCount ts₂ u := by
  simp [claimedCount, List.filter_append]

theorem writerCount_cons (t : Task) (ts : List Task) (u : List Char) :
    writerCount (t :: ts) u =
      (if t.url = u ∧ isWriter t.phase = true then 1 else 0) +
        writerCount ts u := by
  simp only [writerCount, List.filter_cons]
  by_cases h : (decide (t.url = u) && isWriter t.phase) = true
  · rw [if_pos h, if_pos]
    · simp only [List.length_cons]; omega
    · simpa only [Bool.and_eq_true, decide_eq_true_eq] using h
  · rw [if_neg h, if_neg]
    · omega
    · simpa only [Bool.and_eq_true, decide_eq_true_eq] using h

theorem claimedCount_cons (t : Task) (ts : List Task) (u : List Char) :
    claimedCount (t :: ts) u =
      (if t.url = u ∧ isClaimed t.phase = true then 1 else 0) +
        claimedCount ts u := by
  simp only [claimedCount, List.filter_cons]
  by_cases h : (decide (t.url = u) && isClaimed t.phase) = true
  · rw [if_pos h, if_pos]
    · simp only [List.length_cons]; omega
    · simpa only [Bool.and_eq_true, decide_eq_true_eq] using h
  · rw [if_neg h, if_neg]
    · omega
    · simpa only [Bool.and_eq_true, decide_eq_true_eq] using h

theorem writerCount_spawn (cfg : Config) (hrefs : List (List Char))
    (u : List Char) (d : Int) (x : List Char) :
    writerCount (spawnTasks cfg hrefs u d) x = 0 := by
  unfold writerCount spawnTasks
  split
  · rw [List.filter_eq_nil_iff.mpr, List.length_nil]
    intro t ht
    simp only [List.mem_map] at ht
    obtain ⟨l, _, rfl⟩ := ht
    simp [isWriter]
  · simp

theorem claimedCount_spawn (cfg : Config) (hrefs : List (List Char))
    (u : List Char) (d : Int) (x : List Char) :
    claimedCount (spawnTasks cfg hrefs u d) x = 0 := by
  unfold claimedCount spawnTasks
  split
  · rw [List.filter_eq_nil_iff.mpr, List.length_nil]
    intro t ht
    simp only [List.mem_map] at ht
    obtain ⟨l, _, rfl⟩ := ht
    simp [isClaimed]
  · simp

theorem writerCount_pos {ts : List Task} {u : List Char}
    (h : 0 < writerCount ts u) :
    ∃ t ∈ ts, t.url = u ∧ isWriter t.phase = true := by
  unfold writerCount at h
  match hlp : ts.filter (fun t => decide (t.url = u) && isWriter t.phase) with
  | [] => rw [hlp] at h; simp at h
  | t :: r =>
    have ht : t ∈ ts.filter (fun t => decide (t.url = u) && isWriter t.phase) := by
      rw [hlp]; exact List.mem_cons_self _ _
    have := List.mem_filter.mp ht
    refine ⟨t, this.1, ?_, ?_⟩
    · have := this.2
      simp only [Bool.and_eq_true, decide_eq_true_eq] at this
      exact this.1
    · have := this.2
      simp only [Bool.and_eq_true, decide_eq_true_eq] at this
      exact this.2

theorem claimedCount_pos {ts : List Task} {u : List Char}
    (h : 0 < claimedCount ts u) :
    ∃ t ∈ ts, t.url = u ∧ isClaimed t.phase = true := by
  unfold claimedCount at h
  match hlp : ts.filter (fun t => decide (t.url = u) && isClaimed t.phase) with
  | [] => rw [hlp] at h; simp at h
  | t :: r =>
    have ht : t ∈ ts.filter (fun t => decide (t.url = u) && isClaimed t.phase) := by
      rw [hlp]; exact List.mem_cons_self _ _
    have := List.mem_filter.mp ht
    refine ⟨t, this.1, ?_, ?_⟩
    · have := this.2
      simp only [Bool.and_eq_true, decide_eq_true_eq] at this
      exact this.1
    · have := this.2
      simp only [Bool.and_eq_true, decide_eq_true_eq] at this
      exact this.2

/-- `isClaimed` implies `isWriter`. -/
theorem isWriter_of_isClaimed {p : Phase} (h : isClaimed p = true) :
    isWriter p = true := by
  cases p <;> simp_all [isClaimed, isWriter]

theorem fetchedUrls_append (e₁ e₂ : List CrawlEvent) :
    fetchedUrls (e₁ ++ e₂) = fetchedUrls e₁ ++ fetchedUrls e₂ := by
  simp [fetchedUrls]

/-- Every URL returned by `extract_links` passed the domain check: its parse
succeeds and its authority is exactly `domain`. -/
theorem mem_extract_links_hostMatches (hostOk netlocOk : List Char → Bool)
    (domain : List Char) (hrefs : List (List Char)) (base u : List Char)
    (hu : u ∈ extract_links hostOk netlocOk domain hrefs base) :
    hostMatches hostOk netlocOk domain u = true := by
  unfold extract_links at hu
  revert hu
  cases hgo : extractLinksGo hostOk netlocOk domain base hrefs with
  | none => intro hu; simp at hu
  | some l =>
    intro hu
    induction hrefs generalizing l with
    | nil =>
      simp only [extractLinksGo] at hgo
      cases hgo; simp at hu
    | cons h t ih =>
      simp only [extractLinksGo] at hgo
      revert hgo
      cases hph : processHref hostOk netlocOk domain base h with
      | none => intro hgo; cases hgo
      | some o =>
        cases hrest : extractLinksGo hostOk netlocOk domain base t with
        | none => intro hgo; cases hgo
        | some rest =>
          intro hgo
          cases hgo
          have hmem : u ∈ rest ∨ o = some u := by
            cases o with
            | none => left; simpa using hu
            | some w =>
              simp only [List.mem_cons] at hu
              rcases hu with hu | hu
              · right; rw [hu]
              · left; exact hu
          rcases hmem with hmem | rfl'
          · exact ih rest hrest hmem
          · -- `o = some u`: unfold `processHref`
            subst rfl'
            unfold processHref at hph
            split at hph
            · simp at hph
            · cases hj : urljoin hostOk netlocOk base h with
              | none => rw [hj] at hph; simp at hph
              | some full =>
                rw [hj] at hph
                simp only [Option.pure_def, Option.bind_eq_bind,
                  Option.some_bind] at hph
                cases hn : normalize_url hostOk netlocOk full with
                | none => rw [hn] at hph; simp at hph
                | some norm =>
                  rw [hn] at hph
                  simp only [Option.some_bind] at hph
                  cases hp : urlparse hostOk netlocOk [] norm with
                  | none => rw [hp] at hph; simp at hph
                  | some p =>
                    rw [hp] at hph
                    simp only [Option.some_bind] at hph
                    by_cases hdom : p.netloc = domain
                    · rw [if_pos hdom] at hph
                      have hnu : norm = u :=
                        Option.some_inj.mp (Option.some_inj.mp hph)
                      subst hnu
                      simp [hostMatches, hp, hdom]
                    · rw [if_neg hdom] at hph
                      simp at hph

/-- The inductive invariant of the crawl: visited-set discipline, exactly-once
admission, depth bounds, domain restriction and time-filter facts. -/
structure Inv (cfg : Config) (s : CrawlState) : Prop where
  sitemapVisited : ∀ p ∈ s.sitemap, p.1 ∈ s.visited
  writerVisited : ∀ t ∈ s.tasks, isWriter t.phase = true → t.url ∈ s.visited
  recOnce : ∀ u, (s.sitemap.map Prod.fst).count u + writerCount s.tasks u ≤ 1
  fetchVisited : ∀ u ∈ fetchedUrls s.events, u ∈ s.visited
  fetchOnce : ∀ u, (fetchedUrls s.events).count u + claimedCount s.tasks u ≤ 1
  writerDepth : ∀ t ∈ s.tasks, isWriter t.phase = true → t.depth ≤ cfg.maxDepth
  taskDepth : ∀ t ∈ s.tasks, t.depth = 0 ∨ t.depth ≤ cfg.maxDepth
  taskDomain : ∀ t ∈ s.tasks, t.url = cfg.startUrl ∨
    hostMatches cfg.hostOk cfg.netlocOk cfg.domain t.url = true
  sitemapDomain : ∀ p ∈ s.sitemap, p.1 = cfg.startUrl ∨
    hostMatches cfg.hostOk cfg.netlocOk cfg.domain p.1 = true
  fetchDepth : ∀ u d, CrawlEvent.fetch u d ∈ s.events → d ≤ cfg.maxDepth
  recordDepth : ∀ u d lm, CrawlEvent.record u d lm ∈ s.events →
    d ≤ cfg.maxDepth
  filteredInv : ∀ u d lm, CrawlEvent.filteredOut u d lm ∈ s.events →
    u ∈ s.visited ∧ cfg.useTimeFilter = true
  sitemapFresh : ∀ p ∈ s.sitemap, cfg.useTimeFilter = true →
    cfg.timeFilterThreshold < p.2
  sitemapRecorded : ∀ p ∈ s.sitemap, ∃ d,
    CrawlEvent.record p.1 d p.2 ∈ s.events ∧ d ≤ cfg.maxDepth

theorem inv_init (cfg : Config) : Inv cfg (initState cfg) := by
  constructor <;>
    simp [initState, writerCount, claimedCount, fetchedUrls, isWriter,
      isClaimed]

theorem writerCount_mid (pre post : List Task) (t : Task) (u : List Char) :
    writerCount (pre ++ t :: post) u =
      writerCount pre u +
        (if t.url = u ∧ isWriter t.phase = true then 1 else 0) +
        writerCount post u := by
  rw [writerCount_append, writerCount_cons]; omega

theorem claimedCount_mid (pre post : List Task) (t : Task) (u : List Char) :
    claimedCount (pre ++ t :: post) u =
      claimedCount pre u +
        (if t.url = u ∧ isClaimed t.phase = true then 1 else 0) +
        claimedCount post u := by
  rw [claimedCount_append, claimedCount_cons]; omega

theorem writerCount_mid_ready (pre post : List Task) (u : List Char)
    (d : Int) (x : List Char) :
    writerCount (pre ++ ⟨u, d, .ready⟩ :: post) x =
      writerCount pre x + writerCount post x := by
  rw [writerCount_mid]; simp [isWriter]

theorem writerCount_mid_done (pre post : List Task) (u : List Char)
    (d : Int) (x : List Char) :
    writerCount (pre ++ ⟨u, d, .done⟩ :: post) x =
      writerCount pre x + writerCount post x := by
  rw [writerCount_mid]; simp [isWriter]

theorem writerCount_mid_claimed (pre post : List Task) (u : List Char)
    (d : Int) (x : List Char) :
    writerCount (pre ++ ⟨u, d, .claimed⟩ :: post) x =
      writerCount pre x + (if u = x then 1 else 0) + writerCount post x := by
  rw [writerCount_mid]; simp [isWriter]

theorem writerCount_mid_fetched (pre post : List Task) (u : List Char)
    (d : Int) (hrefs : List (List Char)) (lm : Int) (x : List Char) :
    writerCount (pre ++ ⟨u, d, .fetched hrefs lm⟩ :: post) x =
      writerCount pre x + (if u = x then 1 else 0) + writerCount post x := by
  rw [writerCount_mid]; simp [isWriter]

theorem claimedCount_mid_ready (pre post : List Task) (u : List Char)
    (d : Int) (x : List Char) :
    claimedCount (pre ++ ⟨u, d, .ready⟩ :: post) x =
      claimedCount pre x + claimedCount post x := by
  rw [claimedCount_mid]; simp [isClaimed]

theorem claimedCount_mid_done (pre post : List Task) (u : List Char)
    (d : Int) (x : List Char) :
    claimedCount (pre ++ ⟨u, d, .done⟩ :: post) x =
      claimedCount pre x + claimedCount post x := by
  rw [claimedCount_mid]; simp [isClaimed]

theorem claimedCount_mid_claimed (pre post : List Task) (u : List Char)
    (d : Int) (x : List Char) :
    claimedCount (pre ++ ⟨u, d, .claimed⟩ :: post) x =
      claimedCount pre x + (if u = x then 1 else 0) + claimedCount post x := by
  rw [claimedCount_mid]; simp [isClaimed]

theorem claimedCount_mid_fetched (pre post : List Task) (u : List Char)
    (d : Int) (hrefs : List (List Char)) (lm : Int) (x : List Char) :
    claimedCount (pre ++ ⟨u, d, .fetched hrefs lm⟩ :: post) x =
      claimedCount pre x + claimedCount post x := by
  rw [claimedCount_mid]; simp [isClaimed]

theorem mem_mid (pre post : List Task) (t : Task) : t ∈ pre ++ t :: post := by
  simp

theorem mem_replace_elim {pre post : List Task} (told : Task)
    {tnew x : Task} (hx : x ∈ pre ++ tnew :: post) :
    x = tnew ∨ x ∈ pre ++ told :: post := by
  simp only [List.mem_append, List.mem_cons] at hx ⊢
  tauto

theorem count_append_one (l : List (List Char)) (a x : List Char) :
    (l ++ [a]).count x = l.count x + (if a = x then 1 else 0) := by
  rw [List.count_append]
  by_cases h : a = x
  · subst h; simp
  · have hx : x ≠ a := fun hh => h hh.symm
    simp [List.count_cons, hx, h]

theorem mem_spawnTasks {cfg : Config} {hrefs : List (List Char)}
    {u : List Char} {d : Int} {x : Task}
    (hx : x ∈ spawnTasks cfg hrefs u d) :
    x.depth = d + 1 ∧ d + 1 ≤ cfg.maxDepth ∧ x.phase = .ready ∧
      x.url ∈ extract_links cfg.hostOk cfg.netlocOk cfg.domain hrefs u := by
  unfold spawnTasks at hx
  split at hx
  · obtain ⟨l, hl, rfl⟩ := List.mem_map.mp hx
    exact ⟨rfl, by assumption, rfl, hl⟩
  · simp at hx

theorem fetchedUrls_fetch (u : List Char) (d : Int) :
    fetchedUrls [CrawlEvent.fetch u d] = [u] := rfl

theorem fetchedUrls_record (u : List Char) (d lm : Int) :
    fetchedUrls [CrawlEvent.record u d lm] = [] := rfl

theorem fetchedUrls_filteredOut (u : List Char) (d lm : Int) :
    fetchedUrls [CrawlEvent.filteredOut u d lm] = [] := rfl

/-- Preservation of the crawl invariant along one transition. -/
theorem inv_step {cfg : Config} {env : FetchEnv} {s s' : CrawlState}
    (hs : Inv cfg s) (hstep : Step cfg env s s') : Inv cfg s' := by
  obtain ⟨sv, wv, ro, fv, fo, wd, td, tdom, sdom, fd, rd, fi, sf, sr⟩ := hs
  cases hstep with
  | reject pre post u d vis sm ev hguard =>
    constructor
    · exact sv
    · intro t ht hw
      rcases mem_replace_elim (⟨u, d, .ready⟩) ht with rfl | ht'
      · simp [isWriter] at hw
      · exact wv t ht' hw
    · intro x
      have hro := ro x
      dsimp only at hro ⊢
      rw [writerCount_mid_ready] at hro
      rw [writerCount_mid_done]
      omega
    · exact fv
    · intro x
      have hfo := fo x
      dsimp only at hfo ⊢
      rw [claimedCount_mid_ready] at hfo
      rw [claimedCount_mid_done]
      omega
    · intro t ht hw
      rcases mem_replace_elim (⟨u, d, .ready⟩) ht with rfl | ht'
      · simp [isWriter] at hw
      · exact wd t ht' hw
    · intro t ht
      rcases mem_replace_elim (⟨u, d, .ready⟩) ht with rfl | ht'
      · exact td ⟨u, d, .ready⟩ (mem_mid _ _ _)
      · exact td t ht'
    · intro t ht
      rcases mem_replace_elim (⟨u, d, .ready⟩) ht with rfl | ht'
      · exact tdom ⟨u, d, .ready⟩ (mem_mid _ _ _)
      · exact tdom t ht'
    · exact sdom
    · exact fd
    · exact rd
    · exact fi
    · exact sf
    · exact sr
  | skipVisited pre post u d vis sm ev hadm hvis =>
    constructor
    · exact sv
    · intro t ht hw
      rcases mem_replace_elim (⟨u, d, .ready⟩) ht with rfl | ht'
      · simp [isWriter] at hw
      · exact wv t ht' hw
    · intro x
      have hro := ro x
      dsimp only at hro ⊢
      rw [writerCount_mid_ready] at hro
      rw [writerCount_mid_done]
      omega
    · exact fv
    · intro x
      have hfo := fo x
      dsimp only at hfo ⊢
      rw [claimedCount_mid_ready] at hfo
      rw [claimedCount_mid_done]
      omega
    · intro t ht hw
      rcases mem_replace_elim (⟨u, d, .ready⟩) ht with rfl | ht'
      · simp [isWriter] at hw
      · exact wd t ht' hw
    · intro t ht
      rcases mem_replace_elim (⟨u, d, .ready⟩) ht with rfl | ht'
      · exact td ⟨u, d, .ready⟩ (mem_mid _ _ _)
      · exact td t ht'
    · intro t ht
      rcases mem_replace_elim (⟨u, d, .ready⟩) ht with rfl | ht'
      · exact tdom ⟨u, d, .ready⟩ (mem_mid _ _ _)
      · exact tdom t ht'
    · exact sdom
    · exact fd
    · exact rd
    · exact fi
    · exact sf
    · exact sr
  | claim pre post u d vis sm ev hadm hnv =>
    have hcount0 : (sm.map Prod.fst).count u = 0 :=
      List.count_eq_zero.mpr (fun hmem => by
        obtain ⟨p, hp, hpu⟩ := List.mem_map.mp hmem
        exact hnv (hpu ▸ sv p hp))
    have hwpre : writerCount pre u = 0 := by
      by_contra h0
      obtain ⟨t, ht, htu, htw⟩ := writerCount_pos (Nat.pos_of_ne_zero h0)
      exact hnv (htu ▸ wv t (List.mem_append.mpr (Or.inl ht)) htw)
    have hwpost : writerCount post u = 0 := by
      by_contra h0
      obtain ⟨t, ht, htu, htw⟩ := writerCount_pos (Nat.pos_of_ne_zero h0)
      exact hnv (htu ▸
        wv t (List.mem_append.mpr (Or.inr (List.mem_cons_of_mem _ ht))) htw)
    have hfcount0 : (fetchedUrls ev).count u = 0 :=
      List.count_eq_zero.mpr (fun hmem => hnv (fv u hmem))
    have hcpre : claimedCount pre u = 0 := by
      by_contra h0
      obtain ⟨t, ht, htu, htc⟩ := claimedCount_pos (Nat.pos_of_ne_zero h0)
      exact hnv (htu ▸ wv t (List.mem_append.mpr (Or.inl ht))
        (isWriter_of_isClaimed htc))
    have hcpost : claimedCount post u = 0 := by
      by_contra h0
      obtain ⟨t, ht, htu, htc⟩ := claimedCount_pos (Nat.pos_of_ne_zero h0)
      exact hnv (htu ▸
        wv t (List.mem_append.mpr (Or.inr (List.mem_cons_of_mem _ ht)))
        (isWriter_of_isClaimed htc))
    constructor
    · intro p hp
      exact List.mem_cons_of_mem _ (sv p hp)
    · intro t ht hw
      rcases mem_replace_elim (⟨u, d, .ready⟩) ht with rfl | ht'
      · exact List.mem_cons_self _ _
      · exact List.mem_cons_of_mem _ (wv t ht' hw)
    · intro x
      have hro := ro x
      dsimp only at hro ⊢
      rw [writerCount_mid_ready] at hro
      rw [writerCount_mid_claimed]
      by_cases hx : u = x
      · rw [if_pos hx]
        subst hx
        omega
      · rw [if_neg hx]
        omega
    · intro x hx
      exact List.mem_cons_of_mem _ (fv x hx)
    · intro x
      have hfo := fo x
      dsimp only at hfo ⊢
      rw [claimedCount_mid_ready] at hfo
      rw [claimedCount_mid_claimed]
      by_cases hx : u = x
      · rw [if_pos hx]
        subst hx
        omega
      · rw [if_neg hx]
        omega
    · intro t ht hw
      rcases mem_replace_elim (⟨u, d, .ready⟩) ht with rfl | ht'
      · exact hadm.1
      · exact wd t ht' hw
    · intro t ht
      rcases mem_replace_elim (⟨u, d, .ready⟩) ht with rfl | ht'
      · exact td ⟨u, d, .ready⟩ (mem_mid _ _ _)
      · exact td t ht'
    · intro t ht
      rcases mem_replace_elim (⟨u, d, .ready⟩) ht with rfl | ht'
      · exact tdom ⟨u, d, .ready⟩ (mem_mid _ _ _)
      · exact tdom t ht'
    · exact sdom
    · exact fd
    · exact rd
    · intro x dd lm hx
      exact ⟨List.mem_cons_of_mem _ (fi x dd lm hx).1, (fi x dd lm hx).2⟩
    · exact sf
    · exact sr
  | fetchFail pre post u d vis sm ev henv =>
    constructor
    · exact sv
    · intro t ht hw
      rcases mem_replace_elim (⟨u, d, .claimed⟩) ht with rfl | ht'
      · simp [isWriter] at hw
      · exact wv t ht' hw
    · intro x
      have hro := ro x
      dsimp only at hro ⊢
      rw [writerCount_mid_claimed] at hro
      rw [writerCount_mid_done]
      by_cases hx : u = x
      · rw [if_pos hx] at hro; omega
      · rw [if_neg hx] at hro; omega
    · intro x hx
      dsimp only at hx
      rw [fetchedUrls_append, fetchedUrls_fetch] at hx
      rcases List.mem_append.mp hx with hx | hx
      · exact fv x hx
      · rw [List.mem_singleton.mp hx]
        exact wv ⟨u, d, .claimed⟩ (mem_mid _ _ _) rfl
    · intro x
      have hfo := fo x
      dsimp only at hfo ⊢
      rw [claimedCount_mid_claimed] at hfo
      rw [claimedCount_mid_done, fetchedUrls_append, fetchedUrls_fetch,
        count_append_one]
      by_cases hx : u = x
      · rw [if_pos hx] at hfo ⊢
        omega
      · rw [if_neg hx] at hfo ⊢
        omega
    · intro t ht hw
      rcases mem_replace_elim (⟨u, d, .claimed⟩) ht with rfl | ht'
      · simp [isWriter] at hw
      · exact wd t ht' hw
    · intro t ht
      rcases mem_replace_elim (⟨u, d, .claimed⟩) ht with rfl | ht'
      · exact td ⟨u, d, .claimed⟩ (mem_mid _ _ _)
      · exact td t ht'
    · intro t ht
      rcases mem_replace_elim (⟨u, d, .claimed⟩) ht with rfl | ht'
      · exact tdom ⟨u, d, .claimed⟩ (mem_mid _ _ _)
      · exact tdom t ht'
    · exact sdom
    · intro x dd hx
      rcases List.mem_append.mp hx with hx | hx
      · exact fd x dd hx
      · have := List.mem_singleton.mp hx
        injection this with h1 h2
        subst h1; subst h2
        exact wd ⟨x, dd, .claimed⟩ (mem_mid _ _ _) rfl
    · intro x dd lm hx
      rcases List.mem_append.mp hx with hx | hx
      · exact rd x dd lm hx
      · exact absurd (List.mem_singleton.mp hx) (by simp)
    · intro x dd lm hx
      rcases List.mem_append.mp hx with hx | hx
      · exact fi x dd lm hx
      · exact absurd (List.mem_singleton.mp hx) (by simp)
    · exact sf
    · intro p hp
      obtain ⟨dd, hd, hle⟩ := sr p hp
      exact ⟨dd, List.mem_append_left _ hd, hle⟩
  | fetchOk pre post u d hrefs lm vis sm ev henv =>
    constructor
    · exact sv
    · intro t ht hw
      rcases mem_replace_elim (⟨u, d, .claimed⟩) ht with rfl | ht'
      · exact wv ⟨u, d, .claimed⟩ (mem_mid _ _ _) rfl
      · exact wv t ht' hw
    · intro x
      have hro := ro x
      dsimp only at hro ⊢
      rw [writerCount_mid_claimed] at hro
      rw [writerCount_mid_fetched]
      omega
    · intro x hx
      dsimp only at hx
      rw [fetchedUrls_append, fetchedUrls_fetch] at hx
      rcases List.mem_append.mp hx with hx | hx
      · exact fv x hx
      · rw [List.mem_singleton.mp hx]
        exact wv ⟨u, d, .claimed⟩ (mem_mid _ _ _) rfl
    · intro x
      have hfo := fo x
      dsimp only at hfo ⊢
      rw [claimedCount_mid_claimed] at hfo
      rw [claimedCount_mid_fetched, fetchedUrls_append, fetchedUrls_fetch,
        count_append_one]
      by_cases hx : u = x
      · rw [if_pos hx] at hfo ⊢
        omega
      · rw [if_neg hx] at hfo ⊢
        omega
    · intro t ht hw
      rcases mem_replace_elim (⟨u, d, .claimed⟩) ht with rfl | ht'
      · exact wd ⟨u, d, .claimed⟩ (mem_mid _ _ _) rfl
      · exact wd t ht' hw
    · intro t ht
      rcases mem_replace_elim (⟨u, d, .claimed⟩) ht with rfl | ht'
      · exact td ⟨u, d, .claimed⟩ (mem_mid _ _ _)
      · exact td t ht'
    · intro t ht
      rcases mem_replace_elim (⟨u, d, .claimed⟩) ht with rfl | ht'
      · exact tdom ⟨u, d, .claimed⟩ (mem_mid _ _ _)
      · exact tdom t ht'
    · exact sdom
    · intro x dd hx
      rcases List.mem_append.mp hx with hx | hx
      · exact fd x dd hx
      · have := List.mem_singleton.mp hx
        injection this with h1 h2
        subst h1; subst h2
        exact wd ⟨x, dd, .claimed⟩ (mem_mid _ _ _) rfl
    · intro x dd lm' hx
      rcases List.mem_append.mp hx with hx | hx
      · exact rd x dd lm' hx
      · exact absurd (List.mem_singleton.mp hx) (by simp)
    · intro x dd lm' hx
      rcases List.mem_append.mp hx with hx | hx
      · exact fi x dd lm' hx
      · exact absurd (List.mem_singleton.mp hx) (by simp)
    · exact sf
    · intro p hp
      obtain ⟨dd, hd, hle⟩ := sr p hp
      exact ⟨dd, List.mem_append_left _ hd, hle⟩
  | filtered pre post u d hrefs lm vis sm ev hrej =>
    constructor
    · exact sv
    · intro t ht hw
      rcases mem_replace_elim (⟨u, d, .fetched hrefs lm⟩) ht
        with rfl | ht'
      · simp [isWriter] at hw
      · exact wv t ht' hw
    · intro x
      have hro := ro x
      dsimp only at hro ⊢
      rw [writerCount_mid_fetched] at hro
      rw [writerCount_mid_done]
      by_cases hx : u = x
      · rw [if_pos hx] at hro; omega
      · rw [if_neg hx] at hro; omega
    · intro x hx
      dsimp only at hx
      rw [fetchedUrls_append, fetchedUrls_filteredOut, List.append_nil] at hx
      exact fv x hx
    · intro x
      have hfo := fo x
      dsimp only at hfo ⊢
      rw [claimedCount_mid_fetched] at hfo
      rw [claimedCount_mid_done, fetchedUrls_append, fetchedUrls_filteredOut,
        List.append_nil]
      omega
    · intro t ht hw
      rcases mem_replace_elim (⟨u, d, .fetched hrefs lm⟩) ht
        with rfl | ht'
      · simp [isWriter] at hw
      · exact wd t ht' hw
    · intro t ht
      rcases mem_replace_elim (⟨u, d, .fetched hrefs lm⟩) ht
        with rfl | ht'
      · exact td ⟨u, d, .fetched hrefs lm⟩ (mem_mid _ _ _)
      · exact td t ht'
    · intro t ht
      rcases mem_replace_elim (⟨u, d, .fetched hrefs lm⟩) ht
        with rfl | ht'
      · exact tdom ⟨u, d, .fetched hrefs lm⟩ (mem_mid _ _ _)
      · exact tdom t ht'
    · exact sdom
    · intro x dd hx
      rcases List.mem_append.mp hx with hx | hx
      · exact fd x dd hx
      · exact absurd (List.mem_singleton.mp hx) (by simp)
    · intro x dd lm' hx
      rcases List.mem_append.mp hx with hx | hx
      · exact rd x dd lm' hx
      · exact absurd (List.mem_singleton.mp hx) (by simp)
    · intro x dd lm' hx
      rcases List.mem_append.mp hx with hx | hx
      · exact fi x dd lm' hx
      · have := List.mem_singleton.mp hx
        injection this with h1 h2 h3
        subst h1
        refine ⟨wv ⟨x, d, .fetched hrefs lm⟩ (mem_mid _ _ _) rfl, ?_⟩
        have := hrej
        unfold timeRejected at this
        exact (Bool.and_eq_true _ _).mp this |>.1
    · exact sf
    · intro p hp
      obtain ⟨dd, hd, hle⟩ := sr p hp
      exact ⟨dd, List.mem_append_left _ hd, hle⟩
  | record pre post u d hrefs lm vis sm ev hrej =>
    constructor
    · intro p hp
      rcases List.mem_append.mp hp with hp | hp
      · exact sv p hp
      · rw [List.mem_singleton.mp hp]
        exact wv ⟨u, d, .fetched hrefs lm⟩ (mem_mid _ _ _) rfl
    · intro t ht hw
      rcases List.mem_append.mp ht with ht | ht
      · rcases mem_replace_elim (⟨u, d, .fetched hrefs lm⟩) ht
          with rfl | ht'
        · simp [isWriter] at hw
        · exact wv t ht' hw
      · rw [(mem_spawnTasks ht).2.2.1] at hw
        simp [isWriter] at hw
    · intro x
      have hro := ro x
      dsimp only at hro ⊢
      rw [writerCount_mid_fetched] at hro
      rw [writerCount_append, writerCount_mid_done, writerCount_spawn,
        List.map_append, List.count_append]
      simp only [List.map_cons, List.map_nil]
      by_cases hx : u = x
      · rw [if_pos hx] at hro
        subst hx
        rw [List.count_cons_self, List.count_nil]
        omega
      · rw [if_neg hx] at hro
        rw [List.count_cons_of_ne (fun h => hx h.symm), List.count_nil]
        omega
    · intro x hx
      dsimp only at hx
      rw [fetchedUrls_append, fetchedUrls_record, List.append_nil] at hx
      exact fv x hx
    · intro x
      have hfo := fo x
      dsimp only at hfo ⊢
      rw [claimedCount_mid_fetched] at hfo
      rw [claimedCount_append, claimedCount_mid_done, claimedCount_spawn,
        fetchedUrls_append, fetchedUrls_record, List.append_nil]
      omega
    · intro t ht hw
      rcases List.mem_append.mp ht with ht | ht
      · rcases mem_replace_elim (⟨u, d, .fetched hrefs lm⟩) ht
          with rfl | ht'
        · simp [isWriter] at hw
        · exact wd t ht' hw
      · rw [(mem_spawnTasks ht).2.2.1] at hw
        simp [isWriter] at hw
    · intro t ht
      rcases List.mem_append.mp ht with ht | ht
      · rcases mem_replace_elim (⟨u, d, .fetched hrefs lm⟩) ht
          with rfl | ht'
        · exact td ⟨u, d, .fetched hrefs lm⟩ (mem_mid _ _ _)
        · exact td t ht'
      · right
        have h := mem_spawnTasks ht
        rw [h.1]
        exact h.2.1
    · intro t ht
      rcases List.mem_append.mp ht with ht | ht
      · rcases mem_replace_elim (⟨u, d, .fetched hrefs lm⟩) ht
          with rfl | ht'
        · exact tdom ⟨u, d, .fetched hrefs lm⟩ (mem_mid _ _ _)
        · exact tdom t ht'
      · right
        exact mem_extract_links_hostMatches _ _ _ _ _ _
          (mem_spawnTasks ht).2.2.2
    · intro p hp
      rcases List.mem_append.mp hp with hp | hp
      · exact sdom p hp
      · rw [List.mem_singleton.mp hp]
        exact tdom ⟨u, d, .fetched hrefs lm⟩ (mem_mid _ _ _)
    · intro x dd hx
      rcases List.mem_append.mp hx with hx | hx
      · exact fd x dd hx
      · exact absurd (List.mem_singleton.mp hx) (by simp)
    · intro x dd lm' hx
      rcases List.mem_append.mp hx with hx | hx
      · exact rd x dd lm' hx
      · have := List.mem_singleton.mp hx
        injection this with h1 h2 h3
        subst h2
        exact wd ⟨u, dd, .fetched hrefs lm⟩ (mem_mid _ _ _) rfl
    · intro x dd lm' hx
      rcases List.mem_append.mp hx with hx | hx
      · exact fi x dd lm' hx
      · exact absurd (List.mem_singleton.mp hx) (by simp)
    · intro p hp hUT
      rcases List.mem_append.mp hp with hp | hp
      · exact sf p hp hUT
      · rw [List.mem_singleton.mp hp]
        have := hrej
        unfold timeRejected at this
        rw [hUT, Bool.true_and] at this
        have : ¬ (lm ≤ cfg.timeFilterThreshold) := by
          simpa using this
        exact not_le.mp this
    · intro p hp
      rcases List.mem_append.mp hp with hp | hp
      · obtain ⟨dd, hd, hle⟩ := sr p hp
        exact ⟨dd, List.mem_append_left _ hd, hle⟩
      · rw [List.mem_singleton.mp hp]
        exact ⟨d, List.mem_append_right _ (List.mem_singleton.mpr rfl),
          wd ⟨u, d, .fetched hrefs lm⟩ (mem_mid _ _ _) rfl⟩

/-- The invariant holds in every reachable crawl state. -/
theorem inv_reach {cfg : Config} {env : FetchEnv} {s : CrawlState}
    (hs : Reach cfg env s) : Inv cfg s := by
  induction hs with
  | init => exact inv_init cfg
  | step _ hstep ih => exact inv_step ih hstep

/-! ## A concrete crawl run (used to instantiate the theorems below)

Domain `x.test`, start URL `https://x.test/a` whose page links to `/b`
twice (plus a fragment link, a `mailto:` link and an off-domain link), with
the time filter enabled at threshold `10`; page `a` was modified at `20`,
page `b` at `5`.  The worker schedule: crawl `a`, spawn two tasks for
`https://x.test/b`, crawl the first (rejected by the time filter), and
deduplicate the second. -/

def aW : List Char := "https://x.test/a".toList

def bW : List Char := "https://x.test/b".toList

def hrefsW : List (List Char) :=
  ["/b".toList, "/b".toList, "#frag".toList, "mailto:x@y".toList,
   "ftp://other.test/z".toList]

def cfgW : Config :=
  ⟨"x.test".toList, aW, 1, true, 10, "SitemapGenerator/1.0".toList, none,
   anyHost, anyHost⟩

def envW : FetchEnv := fun u =>
  if u = aW then some (hrefsW, 20)
  else if u = bW then some ([], 5)
  else none

def sW : CrawlState :=
  ⟨[⟨aW, 0, .done⟩, ⟨bW, 1, .done⟩, ⟨bW, 1, .done⟩], [bW, aW], [(aW, 20)],
   [.fetch aW 0, .record aW 0 20, .fetch bW 1, .filteredOut bW 1 5]⟩

theorem reachW : Reach cfgW envW sW := by
  have h0 : Reach cfgW envW (initState cfgW) := Reach.init
  have h1 : Reach cfgW envW
      ⟨[⟨aW, 0, .claimed⟩], [aW], [], []⟩ :=
    Reach.step h0 (Step.claim [] [] aW 0 [] [] [] (by decide) (by decide))
  have h2 : Reach cfgW envW
      ⟨[⟨aW, 0, .fetched hrefsW 20⟩], [aW], [], [.fetch aW 0]⟩ :=
    Reach.step h1 (Step.fetchOk [] [] aW 0 hrefsW 20 [aW] [] [] (by decide))
  have h3 : Reach cfgW envW
      ⟨([] ++ ⟨aW, 0, .done⟩ :: []) ++ spawnTasks cfgW hrefsW aW 0, [aW],
        [] ++ [(aW, 20)], [.fetch aW 0] ++ [.record aW 0 20]⟩ :=
    Reach.step h2
      (Step.record [] [] aW 0 hrefsW 20 [aW] [] [.fetch aW 0] (by decide))
  have e3 : (⟨([] ++ ⟨aW, 0, .done⟩ :: []) ++ spawnTasks cfgW hrefsW aW 0,
      [aW], [] ++ [(aW, 20)],
      [.fetch aW 0] ++ [.record aW 0 20]⟩ : CrawlState) =
      ⟨[⟨aW, 0, .done⟩, ⟨bW, 1, .ready⟩, ⟨bW, 1, .ready⟩], [aW], [(aW, 20)],
        [.fetch aW 0, .record aW 0 20]⟩ := by decide
  rw [e3] at h3
  have h4 : Reach cfgW envW
      ⟨[⟨aW, 0, .done⟩, ⟨bW, 1, .claimed⟩, ⟨bW, 1, .ready⟩], [bW, aW],
        [(aW, 20)], [.fetch aW 0, .record aW 0 20]⟩ :=
    Reach.step h3
      (Step.claim [⟨aW, 0, .done⟩] [⟨bW, 1, .ready⟩] bW 1 [aW] [(aW, 20)]
        [.fetch aW 0, .record aW 0 20] (by decide) (by decide))
  have h5 : Reach cfgW envW
      ⟨[⟨aW, 0, .done⟩, ⟨bW, 1, .fetched [] 5⟩, ⟨bW, 1, .ready⟩], [bW, aW],
        [(aW, 20)], [.fetch aW 0, .record aW 0 20, .fetch bW 1]⟩ := by
    have := Reach.step h4
      (Step.fetchOk [⟨aW, 0, .done⟩] [⟨bW, 1, .ready⟩] bW 1 [] 5 [bW, aW]
        [(aW, 20)] [.fetch aW 0, .record aW 0 20] (by decide))
    simpa using this
  have h6 : Reach cfgW envW
      ⟨[⟨aW, 0, .done⟩, ⟨bW, 1, .done⟩, ⟨bW, 1, .ready⟩], [bW, aW],
        [(aW, 20)],
        [.fetch aW 0, .record aW 0 20, .fetch bW 1, .filteredOut bW 1 5]⟩ := by
    have := Reach.step h5
      (Step.filtered [⟨aW, 0, .done⟩] [⟨bW, 1, .ready⟩] bW 1 [] 5 [bW, aW]
        [(aW, 20)] [.fetch aW 0, .record aW 0 20, .fetch bW 1] (by decide))
    simpa using this
  have h7 := Reach.step h6
    (Step.skipVisited [⟨aW, 0, .done⟩, ⟨bW, 1, .done⟩] [] bW 1 [bW, aW]
      [(aW, 20)]
      [.fetch aW 0, .record aW 0 20, .fetch bW 1, .filteredOut bW 1 5]
      (by decide) (by decide))
  simpa [sW] using h7

/-! ## Claim theorems about the crawl engine -/

theorem nodup_of_count_le_one {l : List (List Char)}
    (h : ∀ u, l.count u ≤ 1) : l.Nodup := by
  induction l with
  | nil => exact List.nodup_nil
  | cons a t ih =>
    refine List.nodup_cons.mpr ⟨?_, ih ?_⟩
    · intro hmem
      have ha := h a
      rw [List.count_cons_self] at ha
      have hz : t.count a = 0 := by omega
      exact (List.count_eq_zero.mp hz) hmem
    · intro u
      exact le_trans (List.Sublist.count_le (List.sublist_cons_self a t) u) (h u)

/-- Claim C1: in every reachable crawl state — in particular when the crawl
terminates and the sitemap document is serialized — each URL occurs at most
once among the sitemap's `loc` entries, for every fetch environment and every
interleaving of the concurrent workers (including schedules in which several
pages discover the same URL).  The membership test and the insertion into
`visited_urls` (lines 186–189 of `src/sitemap_generator.py`) are one atomic
transition of the model (`Step.claim` / `Step.skipVisited`), exactly because
the code performs both under the single `self.lock`. -/
theorem sitemap_urls_nodup (cfg : Config) (env : FetchEnv) (s : CrawlState)
    (hs : Reach cfg env s) : (s.sitemap.map Prod.fst).Nodup := by
  have hinv := inv_reach hs
  refine nodup_of_count_le_one (fun u => ?_)
  have h := hinv.recOnce u
  omega

theorem sitemap_urls_nodup_witness :
    (sW.sitemap.map Prod.fst).Nodup :=
  sitemap_urls_nodup cfgW envW sW reachW

/-- Claim C2 (amended): every page recorded in the sitemap either is the
start URL — which `crawl_page` records without any domain check — or passed
the `extract_links` filter, so its parsed authority equals the configured
domain exactly.  (As stated, the claim fails: the start URL is fetched and
recorded even when its host differs from `DOMAIN`; see the
counterexample.) -/
theorem sitemap_domain_restriction (cfg : Config) (env : FetchEnv)
    (s : CrawlState) (hs : Reach cfg env s) :
    ∀ p ∈ s.sitemap, p.1 = cfg.startUrl ∨
      hostMatches cfg.hostOk cfg.netlocOk cfg.domain p.1 = true :=
  (inv_reach hs).sitemapDomain

theorem sitemap_domain_restriction_witness :
    (aW, (20 : Int)) ∈ sW.sitemap ∧
      ((aW, (20 : Int)).1 = cfgW.startUrl ∨
        hostMatches cfgW.hostOk cfgW.netlocOk cfgW.domain
          (aW, (20 : Int)).1 = true) :=
  ⟨by decide, sitemap_domain_restriction cfgW envW sW reachW
    (aW, (20 : Int)) (by decide)⟩

/-- The configuration of the C2 counterexample: the configured domain is
`www.example.com` but `START_URL` points at `https://other.test/`.  Both are
independent environment variables (`config.py`), so nothing in the code rules
this out. -/
def cfgC2 : Config :=
  ⟨"www.example.com".toList, "https://other.test/".toList, 0, false, 0,
   "SitemapGenerator/1.0".toList, none, anyHost, anyHost⟩

def envC2 : FetchEnv := fun u =>
  if u = "https://other.test/".toList then some ([], 5) else none

/-- Claim C2 is false as stated: a reachable run records the start page
`https://other.test/` in the sitemap although its host is not the configured
domain `www.example.com` (the code never domain-checks the start URL). -/
theorem domain_restriction_counterexample :
    ∃ s, Reach cfgC2 envC2 s ∧
      s.sitemap.map Prod.fst = ["https://other.test/".toList] ∧
      hostMatches cfgC2.hostOk cfgC2.netlocOk cfgC2.domain
        "https://other.test/".toList = false := by
  refine ⟨⟨[⟨"https://other.test/".toList, 0, .done⟩],
    ["https://other.test/".toList], [("https://other.test/".toList, 5)],
    [.fetch "https://other.test/".toList 0,
     .record "https://other.test/".toList 0 5]⟩, ?_, by decide, by decide⟩
  have h0 : Reach cfgC2 envC2 (initState cfgC2) := Reach.init
  have h1 : Reach cfgC2 envC2
      ⟨[⟨"https://other.test/".toList, 0, .claimed⟩],
        ["https://other.test/".toList], [], []⟩ :=
    Reach.step h0 (Step.claim [] [] "https://other.test/".toList 0 [] [] []
      (by decide) (by decide))
  have h2 : Reach cfgC2 envC2
      ⟨[⟨"https://other.test/".toList, 0, .fetched [] 5⟩],
        ["https://other.test/".toList], [],
        [.fetch "https://other.test/".toList 0]⟩ :=
    Reach.step h1 (Step.fetchOk [] [] "https://other.test/".toList 0 [] 5
      ["https://other.test/".toList] [] [] (by decide))
  have h3 := Reach.step h2
    (Step.record [] [] "https://other.test/".toList 0 [] 5
      ["https://other.test/".toList] []
      [.fetch "https://other.test/".toList 0] (by decide))
  have e3 : (⟨([] ++ ⟨"https://other.test/".toList, 0, .done⟩ :: []) ++
        spawnTasks cfgC2 [] "https://other.test/".toList 0,
      ["https://other.test/".toList],
      [] ++ [("https://other.test/".toList, 5)],
      [.fetch "https://other.test/".toList 0] ++
        [.record "https://other.test/".toList 0 5]⟩ : CrawlState) =
      ⟨[⟨"https://other.test/".toList, 0, .done⟩],
        ["https://other.test/".toList],
        [("https://other.test/".toList, 5)],
        [.fetch "https://other.test/".toList 0,
         .record "https://other.test/".toList 0 5]⟩ := by decide
  rw [e3] at h3
  exact h3

/-- Claim C3: in every reachable crawl state, (i) every page in the sitemap
was recorded by a task at crawl depth (number of discovery hops from the
start URL) at most `MAX_DEPTH`, (ii) every fetch that was ever issued was at
depth at most `MAX_DEPTH` (the guard at line 182 runs before `fetch_page`),
and (iii) whenever `MAX_DEPTH` admits the start URL at all, every task ever
enqueued has depth at most `MAX_DEPTH` — a page at the maximum depth never
enqueues `MAX_DEPTH + 1` children, thanks to the `depth + 1 <= MAX_DEPTH`
test at line 235. -/
theorem depth_bound (cfg : Config) (env : FetchEnv) (s : CrawlState)
    (hs : Reach cfg env s) :
    (∀ p ∈ s.sitemap, ∃ d, CrawlEvent.record p.1 d p.2 ∈ s.events ∧
        d ≤ cfg.maxDepth) ∧
    (∀ u d, CrawlEvent.fetch u d ∈ s.events → d ≤ cfg.maxDepth) ∧
    (0 ≤ cfg.maxDepth → ∀ t ∈ s.tasks, t.depth ≤ cfg.maxDepth) := by
  have hinv := inv_reach hs
  refine ⟨hinv.sitemapRecorded, hinv.fetchDepth, fun h0 t ht => ?_⟩
  rcases hinv.taskDepth t ht with hd | hd
  · rw [hd]; exact h0
  · exact hd

theorem depth_bound_witness :
    (0 : Int) ≤ cfgW.maxDepth ∧
      ∀ t ∈ sW.tasks, t.depth ≤ cfgW.maxDepth :=
  ⟨by decide, (depth_bound cfgW envW sW reachW).2.2 (by decide)⟩

/-- Claim C4: when the time filter is enabled, every page in the sitemap has
a last-modification timestamp strictly greater than the threshold; when it is
disabled, no successfully fetched page is ever rejected by the timestamp test
(the model's `filteredOut` transition requires `USE_TIME_FILTER`, mirroring
the `USE_TIME_FILTER and lastmod <= TIME_FILTER_THRESHOLD` test at
line 199). -/
theorem time_filter_correct (cfg : Config) (env : FetchEnv) (s : CrawlState)
    (hs : Reach cfg env s) :
    (cfg.useTimeFilter = true →
      ∀ p ∈ s.sitemap, cfg.timeFilterThreshold < p.2) ∧
    (cfg.useTimeFilter = false →
      ∀ u d lm, CrawlEvent.filteredOut u d lm ∉ s.events) := by
  have hinv := inv_reach hs
  constructor
  · intro hUT p hp
    exact hinv.sitemapFresh p hp hUT
  · intro hUT u d lm hmem
    have := (hinv.filteredInv u d lm hmem).2
    rw [hUT] at this
    cases this

theorem time_filter_correct_witness :
    cfgW.useTimeFilter = true ∧
      ∀ p ∈ sW.sitemap, cfgW.timeFilterThreshold < p.2 :=
  ⟨by decide, (time_filter_correct cfgW envW sW reachW).1 (by decide)⟩

/-- Claim C10: (i) every URL rejected by the time filter is already in the
visited set (it was inserted before the fetch, by the claim transition);
(ii) no URL is ever fetched twice in one run, so in particular a
time-filtered URL is never fetched again; (iii) the time-filter rejection
transition adds nothing to the sitemap and spawns no tasks — `crawl_page`
returns `[]` at line 200, so the page's outgoing links are never
extracted. -/
theorem time_filtered_pages (cfg : Config) (env : FetchEnv) (s : CrawlState)
    (hs : Reach cfg env s) :
    (∀ u d lm, CrawlEvent.filteredOut u d lm ∈ s.events → u ∈ s.visited) ∧
    (fetchedUrls s.events).Nodup ∧
    (∀ s₁ s₂ : CrawlState, ∀ u : List Char, ∀ d lm : Int,
      Step cfg env s₁ s₂ →
      s₂.events = s₁.events ++ [CrawlEvent.filteredOut u d lm] →
      s₂.sitemap = s₁.sitemap ∧ s₂.tasks.length = s₁.tasks.length) := by
  have hinv := inv_reach hs
  refine ⟨fun u d lm hm => (hinv.filteredInv u d lm hm).1, ?_, ?_⟩
  · refine nodup_of_count_le_one (fun u => ?_)
    have h := hinv.fetchOnce u
    omega
  · intro s₁ s₂ u d lm hstep hev
    cases hstep <;> dsimp only at hev ⊢
    · exact absurd (congrArg List.length hev) (by simp)
    · exact absurd (congrArg List.length hev) (by simp)
    · exact absurd (congrArg List.length hev) (by simp)
    · have := List.append_cancel_left hev
      simp at this
    · have := List.append_cancel_left hev
      simp at this
    · exact ⟨rfl, by simp⟩
    · have := List.append_cancel_left hev
      simp at this

theorem time_filtered_pages_witness :
    (∀ u d lm, CrawlEvent.filteredOut u d lm ∈ sW.events → u ∈ sW.visited) ∧
      (fetchedUrls sW.events).Nodup :=
  ⟨(time_filtered_pages cfgW envW sW reachW).1,
   (time_filtered_pages cfgW envW sW reachW).2.1⟩

/-! ## Claims about `fetch_page` and `can_fetch` -/

/-- Claim C6: on an HTTP 200 response, when the `Last-Modified` header is
absent (or present but empty), `fetch_page` returns the content paired with
the current time; the same current-time default is used when the header is
present but `parsedate_to_datetime` rejects it
(`src/sitemap_generator.py:144-154`). -/
theorem fetch_page_now_default {α : Type} (parsedate : List Char → Option Int)
    (now : Int) (r : HttpResponse α) (h200 : r.status = 200) :
    (r.lastModified = none →
      fetch_page parsedate now (some r) = some (r.content, now)) ∧
    (∀ s, r.lastModified = some s → parsedate s = none →
      fetch_page parsedate now (some r) = some (r.content, now)) := by
  constructor
  · intro hnone
    simp [fetch_page, h200, hnone]
  · intro s hsome hbad
    by_cases hse : s = []
    · simp [fetch_page, h200, hsome, hse]
    · simp [fetch_page, h200, hsome, hse, hbad]

theorem fetch_page_now_default_witness :
    fetch_page (fun _ => none) 42
        (some (⟨200, (0 : Int), none⟩ : HttpResponse Int)) = some (0, 42) ∧
      fetch_page (fun _ => none) 42
        (some (⟨200, (0 : Int), some "bogus".toList⟩ : HttpResponse Int)) =
        some (0, 42) :=
  ⟨(fetch_page_now_default (fun _ => none) 42 ⟨200, 0, none⟩ rfl).1 rfl,
   (fetch_page_now_default (fun _ => none) 42
      ⟨200, 0, some "bogus".toList⟩ rfl).2 "bogus".toList rfl rfl⟩

/-- Claim C7: `can_fetch` returns `true` when no robots policy was loaded
(`self.rp` is `None`); when the rule evaluator raises, the exception is
caught and `true` is returned (fail-open, with a warning logged); otherwise
the policy's own evaluation for the configured user agent is returned
(`src/sitemap_generator.py:113-121`). -/
theorem can_fetch_fail_open (ua url : List Char) :
    can_fetch none ua url = true ∧
    (∀ f : List Char → List Char → Option Bool, f ua url = none →
      can_fetch (some f) ua url = true) ∧
    (∀ f : List Char → List Char → Option Bool, ∀ b, f ua url = some b →
      can_fetch (some f) ua url = b) := by
  refine ⟨rfl, ?_, ?_⟩
  · intro f hf
    simp [can_fetch, hf]
  · intro f b hf
    simp [can_fetch, hf]

theorem can_fetch_fail_open_witness :
    can_fetch none "ua".toList "https://x.test/".toList = true ∧
      can_fetch (some (fun _ _ => none)) "ua".toList
        "https://x.test/".toList = true ∧
      can_fetch (some (fun _ _ => some false)) "ua".toList
        "https://x.test/".toList = false :=
  ⟨(can_fetch_fail_open "ua".toList "https://x.test/".toList).1,
   (can_fetch_fail_open "ua".toList "https://x.test/".toList).2.1
     (fun _ _ => none) rfl,
   (can_fetch_fail_open "ua".toList "https://x.test/".toList).2.2
     (fun _ _ => some false) false rfl⟩

/-! ## Claims about `extract_links` -/

/-- Claim C8 is false as stated: `extract_links` only filters hrefs beginning
with `#` or `mailto:`; an href with any other non-HTTP scheme whose host
equals the domain is returned.  Concretely, `ftp://www.example.com/x` on a
`https://www.example.com/` page is returned, and its resolved scheme is
`ftp` — neither `http` nor `https`. -/
theorem nonhttp_scheme_returned_counterexample :
    extract_links anyHost anyHost "www.example.com".toList
        ["ftp://www.example.com/x".toList] "https://www.example.com/".toList =
      ["ftp://www.example.com/x".toList] ∧
    (urlparse anyHost anyHost [] "ftp://www.example.com/x".toList).map
        UrlParts.scheme = some "ftp".toList ∧
    "ftp".toList ≠ "http".toList ∧ "ftp".toList ≠ "https".toList := by
  refine ⟨by decide, by decide, by decide, by decide⟩

/-- The skip test at `src/sitemap_generator.py:168` as a Boolean predicate:
an href is skipped when empty, fragment-only, or a `mailto:` reference. -/
def skippedHref (h : List Char) : Bool :=
  decide (h = [] ∨ h.take 1 = ['#'] ∨ h.take 7 = "mailto:".toList)

theorem extractLinksGo_filter_skipped (hostOk netlocOk : List Char → Bool)
    (domain base : List Char) (hrefs : List (List Char)) :
    extractLinksGo hostOk netlocOk domain base
        (hrefs.filter (fun h => !skippedHref h)) =
      extractLinksGo hostOk netlocOk domain base hrefs := by
  induction hrefs with
  | nil => rfl
  | cons h t ih =>
    by_cases hskip : h = [] ∨ h.take 1 = ['#'] ∨ h.take 7 = "mailto:".toList
    · have hb : skippedHref h = true := decide_eq_true hskip
      have hfil : (h :: t).filter (fun h => !skippedHref h) =
          t.filter (fun h => !skippedHref h) := by
        rw [List.filter_cons]
        simp [hb]
      rw [hfil, ih]
      have hph : processHref hostOk netlocOk domain base h = some none := by
        unfold processHref
        rw [if_pos hskip]
      conv_rhs => rw [extractLinksGo, hph]
      cases hgo : extractLinksGo hostOk netlocOk domain base t <;> rfl
    · have hb : skippedHref h = false := decide_eq_false hskip
      have hfil : (h :: t).filter (fun h => !skippedHref h) =
          h :: t.filter (fun h => !skippedHref h) := by
        rw [List.filter_cons]
        simp [hb]
      rw [hfil]
      show (match processHref hostOk netlocOk domain base h with
        | none => none
        | some o =>
          match extractLinksGo hostOk netlocOk domain base
              (t.filter (fun h => !skippedHref h)) with
          | none => none
          | some rest => some (match o with
            | none => rest
            | some u => u :: rest)) = _
      rw [ih]
      rfl

/-- Claim C8 (amended): hrefs beginning with `#` (fragment-only) and with
`mailto:` are skipped entirely — removing them from the parsed href list does
not change the result of `extract_links` — but an href resolving to any other
non-HTTP scheme with a matching host can be returned (see the
counterexample). -/
theorem extract_links_skips_fragment_and_mailto
    (hostOk netlocOk : List Char → Bool) (domain base : List Char)
    (hrefs : List (List Char)) :
    extract_links hostOk netlocOk domain
        (hrefs.filter (fun h => !skippedHref h)) base =
      extract_links hostOk netlocOk domain hrefs base := by
  unfold extract_links
  rw [extractLinksGo_filter_skipped]

/-- Claim C9 is false as stated: `extract_links` returns a `list`, not a set.
Two anchors with the same target yield the same normalized URL twice. -/
theorem extract_links_duplicates_counterexample :
    extract_links anyHost anyHost "www.example.com".toList
        ["/a".toList, "/a".toList] "https://www.example.com/".toList =
      ["https://www.example.com/a".toList,
       "https://www.example.com/a".toList] ∧
    ¬ (extract_links anyHost anyHost "www.example.com".toList
        ["/a".toList, "/a".toList]
        "https://www.example.com/".toList).Nodup := by
  refine ⟨by decide, by decide⟩

theorem extractLinksGo_length (hostOk netlocOk : List Char → Bool)
    (domain base : List Char) (hrefs : List (List Char))
    (l : List (List Char))
    (hgo : extractLinksGo hostOk netlocOk domain base hrefs = some l) :
    l.length ≤ hrefs.length := by
  induction hrefs generalizing l with
  | nil =>
    simp only [extractLinksGo] at hgo
    cases hgo
    simp
  | cons h t ih =>
    simp only [extractLinksGo] at hgo
    revert hgo
    cases hph : processHref hostOk netlocOk domain base h with
    | none => intro hgo; cases hgo
    | some o =>
      cases hrest : extractLinksGo hostOk netlocOk domain base t with
      | none => intro hgo; cases hgo
      | some rest =>
        intro hgo
        cases hgo
        have hr := ih rest hrest
        cases o with
        | none => simpa using Nat.le_succ_of_le hr
        | some u => simpa using Nat.succ_le_succ hr

/-- Claim C9 (amended): the extractor's result is a list with at most one
entry per anchor, and every entry is a normalized URL whose parsed authority
equals the configured domain; the same URL can appear several times when
several anchors reference it (see the counterexample) — deduplication happens
later, at dispatch time, through the visited set. -/
theorem extract_links_list_entries (hostOk netlocOk : List Char → Bool)
    (domain base : List Char) (hrefs : List (List Char)) :
    (extract_links hostOk netlocOk domain hrefs base).length ≤
      hrefs.length ∧
    ∀ u ∈ extract_links hostOk netlocOk domain hrefs base,
      hostMatches hostOk netlocOk domain u = true := by
  constructor
  · unfold extract_links
    cases hgo : extractLinksGo hostOk netlocOk domain base hrefs with
    | none => simp
    | some l => exact extractLinksGo_length _ _ _ _ _ _ hgo
  · intro u hu
    exact mem_extract_links_hostMatches _ _ _ _ _ _ hu

/-! ## Supporting lemmas for `_normalize_url` (claim C5)

Character-level facts about the scheme alphabet and lower-casing. -/

theorem char_le_toNat {a c : Char} (h : a ≤ c) : a.toNat ≤ c.toNat := by
  rw [Char.le_def, UInt32.le_def, BitVec.le_def] at h
  exact h

theorem toNat_le_char {a c : Char} (h : a.toNat ≤ c.toNat) : a ≤ c := by
  rw [Char.le_def, UInt32.le_def, BitVec.le_def]
  exact h

theorem toNat_ofNat_valid {n : Nat} (h2 : n ≤ 122) :
    (Char.ofNat n).toNat = n := by
  rw [Char.ofNat, dif_pos]
  · rfl
  · exact Or.inl (by omega)

theorem char_le_iff {a c : Char} : a ≤ c ↔ a.toNat ≤ c.toNat :=
  ⟨char_le_toNat, toNat_le_char⟩

theorem isAsciiAlpha_iff {c : Char} : isAsciiAlpha c = true ↔
    (97 ≤ c.toNat ∧ c.toNat ≤ 122) ∨ (65 ≤ c.toNat ∧ c.toNat ≤ 90) := by
  unfold isAsciiAlpha
  simp only [Bool.or_eq_true, decide_eq_true_eq, char_le_iff]
  have e1 : 'a'.toNat = 97 := rfl
  have e2 : 'z'.toNat = 122 := rfl
  have e3 : 'A'.toNat = 65 := rfl
  have e4 : 'Z'.toNat = 90 := rfl
  rw [e1, e2, e3, e4]

theorem isSchemeChar_iff {c : Char} : isSchemeChar c = true ↔
    (97 ≤ c.toNat ∧ c.toNat ≤ 122) ∨ (65 ≤ c.toNat ∧ c.toNat ≤ 90) ∨
    (48 ≤ c.toNat ∧ c.toNat ≤ 57) ∨ c = '+' ∨ c = '-' ∨ c = '.' := by
  unfold isSchemeChar
  simp only [Bool.or_eq_true, decide_eq_true_eq, beq_iff_eq, char_le_iff]
  have e1 : 'a'.toNat = 97 := rfl
  have e2 : 'z'.toNat = 122 := rfl
  have e3 : 'A'.toNat = 65 := rfl
  have e4 : 'Z'.toNat = 90 := rfl
  have e5 : '0'.toNat = 48 := rfl
  have e6 : '9'.toNat = 57 := rfl
  rw [e1, e2, e3, e4, e5, e6]
  tauto

theorem isSchemeChar_of_alpha {c : Char} (h : isAsciiAlpha c = true) :
    isSchemeChar c = true := by
  rw [isSchemeChar_iff]
  rcases isAsciiAlpha_iff.mp h with h | h
  · exact Or.inl h
  · exact Or.inr (Or.inl h)

theorem asciiLower_eq_of_not_upper {c : Char}
    (h : ¬(65 ≤ c.toNat ∧ c.toNat ≤ 90)) : asciiLower c = c := by
  unfold asciiLower
  rw [if_neg]
  rw [decide_eq_true_eq]
  intro hc
  exact h ⟨char_le_toNat hc.1, char_le_toNat hc.2⟩

theorem asciiLower_toNat_of_upper {c : Char}
    (h : 65 ≤ c.toNat ∧ c.toNat ≤ 90) :
    (asciiLower c).toNat = c.toNat + 32 := by
  unfold asciiLower
  rw [if_pos]
  · exact toNat_ofNat_valid (by omega)
  · rw [decide_eq_true_eq]
    exact ⟨toNat_le_char h.1, toNat_le_char h.2⟩

theorem asciiLower_lower_alpha {c : Char} (h : isAsciiAlpha c = true) :
    97 ≤ (asciiLower c).toNat ∧ (asciiLower c).toNat ≤ 122 := by
  rcases isAsciiAlpha_iff.mp h with hr | hr
  · rw [asciiLower_eq_of_not_upper (by omega)]
    exact hr
  · rw [asciiLower_toNat_of_upper hr]
    omega

theorem isAsciiAlpha_asciiLower {c : Char} (h : isAsciiAlpha c = true) :
    isAsciiAlpha (asciiLower c) = true := by
  rw [isAsciiAlpha_iff]
  exact Or.inl (asciiLower_lower_alpha h)

theorem isSchemeChar_asciiLower {c : Char} (h : isSchemeChar c = true) :
    isSchemeChar (asciiLower c) = true := by
  rcases isSchemeChar_iff.mp h with hr | hr | hr | hr | hr | hr
  · rw [asciiLower_eq_of_not_upper (by omega)]
    exact h
  · rw [isSchemeChar_iff]
    exact Or.inl (by rw [asciiLower_toNat_of_upper hr]; omega)
  · rw [asciiLower_eq_of_not_upper (by omega)]
    exact h
  all_goals (subst hr; rw [asciiLower_eq_of_not_upper (by decide)]; exact h)

theorem asciiLower_idem (c : Char) :
    asciiLower (asciiLower c) = asciiLower c := by
  by_cases h : 65 ≤ c.toNat ∧ c.toNat ≤ 90
  · have := asciiLower_toNat_of_upper h
    exact asciiLower_eq_of_not_upper (by omega)
  · rw [asciiLower_eq_of_not_upper h, asciiLower_eq_of_not_upper h]

theorem map_asciiLower_idem (l : List Char) :
    (l.map asciiLower).map asciiLower = l.map asciiLower := by
  induction l with
  | nil => rfl
  | cons c t ih => simp [asciiLower_idem, ih]

theorem ne_of_toNat_ne {a b : Char} (h : a.toNat ≠ b.toNat) : a ≠ b :=
  fun he => h (congrArg Char.toNat he)

theorem asciiLower_ne_colon {c : Char} (h : isSchemeChar c = true) :
    asciiLower c ≠ ':' := by
  intro he
  have h2 := isSchemeChar_asciiLower h
  rw [he] at h2
  exact absurd h2 (by decide)

theorem isC0OrSpace_false_of_gt {c : Char} (h : 32 < c.toNat) :
    isC0OrSpace c = false := by
  unfold isC0OrSpace
  rw [decide_eq_false_iff_not]
  omega

theorem isUnsafe_toNat {c : Char} (h : isUnsafeUrlByte c = true) :
    c.toNat = 9 ∨ c.toNat = 13 ∨ c.toNat = 10 := by
  unfold isUnsafeUrlByte at h
  simp only [Bool.or_eq_true, beq_iff_eq] at h
  rcases h with (h | h) | h <;> subst h
  · exact Or.inl rfl
  · exact Or.inr (Or.inl rfl)
  · exact Or.inr (Or.inr rfl)

theorem isUnsafe_false_of_toNat {c : Char}
    (h : c.toNat ≠ 9 ∧ c.toNat ≠ 13 ∧ c.toNat ≠ 10) :
    isUnsafeUrlByte c = false := by
  cases hu : isUnsafeUrlByte c
  · rfl
  · rcases isUnsafe_toNat hu with h9 | h13 | h10
    · exact absurd h9 h.1
    · exact absurd h13 h.2.1
    · exact absurd h10 h.2.2

theorem isSchemeChar_not_unsafe {c : Char} (h : isSchemeChar c = true) :
    isUnsafeUrlByte c = false := by
  refine isUnsafe_false_of_toNat ?_
  rcases isSchemeChar_iff.mp h with hr | hr | hr | hr | hr | hr
  · omega
  · omega
  · omega
  all_goals (subst hr; refine ⟨by decide, by decide, by decide⟩)

theorem asciiLower_not_unsafe {c : Char} (h : isUnsafeUrlByte c = false) :
    isUnsafeUrlByte (asciiLower c) = false := by
  by_cases hc : 65 ≤ c.toNat ∧ c.toNat ≤ 90
  · refine isUnsafe_false_of_toNat ?_
    rw [asciiLower_toNat_of_upper hc]
    omega
  · rw [asciiLower_eq_of_not_upper hc]
    exact h

/-! List-splitting facts about `splitFirst` / `splitLast`. -/

theorem splitFirst_some {c : Char} {l a b : List Char}
    (h : splitFirst c l = some (a, b)) : l = a ++ c :: b ∧ c ∉ a := by
  induction l generalizing a b with
  | nil => cases h
  | cons x xs ih =>
    rw [splitFirst] at h
    by_cases hx : x = c
    · rw [if_pos hx] at h
      cases h
      subst hx
      exact ⟨rfl, by simp⟩
    · rw [if_neg hx] at h
      revert h
      cases hs : splitFirst c xs with
      | none => intro h; cases h
      | some ab =>
        obtain ⟨a', b'⟩ := ab
        intro h
        cases h
        obtain ⟨hl, hna⟩ := ih hs
        refine ⟨by rw [hl]; rfl, ?_⟩
        intro hc
        rcases List.mem_cons.mp hc with hc | hc
        · exact hx hc.symm
        · exact hna hc

theorem splitFirst_none {c : Char} {l : List Char}
    (h : splitFirst c l = none) : c ∉ l := by
  induction l with
  | nil => simp
  | cons x xs ih =>
    rw [splitFirst] at h
    by_cases hx : x = c
    · rw [if_pos hx] at h; cases h
    · rw [if_neg hx] at h
      revert h
      cases hs : splitFirst c xs with
      | none =>
        intro _
        simp only [List.mem_cons]
        rintro (hc | hc)
        · exact hx hc.symm
        · exact ih hs hc
      | some ab => intro h; cases h

theorem splitFirst_not_mem {c : Char} {l : List Char} (h : c ∉ l) :
    splitFirst c l = none := by
  cases hs : splitFirst c l with
  | none => rfl
  | some ab =>
    obtain ⟨a, b⟩ := ab
    obtain ⟨hl, _⟩ := splitFirst_some hs
    exact absurd (by rw [hl]; simp) h

theorem splitFirst_of_parts {c : Char} {a : List Char} (b : List Char)
    (h : c ∉ a) : splitFirst c (a ++ c :: b) = some (a, b) := by
  induction a with
  | nil => simp [splitFirst]
  | cons x xs ih =>
    have hx : x ≠ c := fun he => h (he ▸ List.mem_cons_self x xs)
    rw [List.cons_append, splitFirst, if_neg hx,
      ih (fun hc => h (List.mem_cons_of_mem _ hc))]

theorem splitFirst_append_left {c : Char} {l a b : List Char}
    (w : List Char) (h : splitFirst c l = some (a, b)) :
    splitFirst c (l ++ w) = some (a, b ++ w) := by
  obtain ⟨hl, hna⟩ := splitFirst_some h
  rw [hl, List.append_assoc, List.cons_append]
  exact splitFirst_of_parts _ hna

theorem splitFirst_append_cases {c : Char} {U w pre post : List Char}
    (h : splitFirst c (U ++ w) = some (pre, post)) :
    (∃ post₀, splitFirst c U = some (pre, post₀) ∧ post = post₀ ++ w) ∨
    (c ∉ U ∧ ∃ a b, splitFirst c w = some (a, b) ∧ pre = U ++ a ∧
      post = b) := by
  induction U generalizing pre with
  | nil =>
    right
    refine ⟨by simp, ?_⟩
    exact ⟨pre, post, by simpa using h, by simp, rfl⟩
  | cons x xs ih =>
    rw [List.cons_append, splitFirst] at h
    by_cases hx : x = c
    · rw [if_pos hx] at h
      cases h
      left
      exact ⟨xs, by rw [splitFirst, if_pos hx], rfl⟩
    · rw [if_neg hx] at h
      revert h
      cases hs : splitFirst c (xs ++ w) with
      | none => intro h; cases h
      | some ab =>
        obtain ⟨a', b'⟩ := ab
        intro h
        cases h
        rcases ih hs with ⟨post₀, hspl, hpost⟩ | ⟨hnm, a₂, b₂, hsw, hpre, hpost⟩
        · left
          exact ⟨post₀, by rw [splitFirst, if_neg hx, hspl], hpost⟩
        · right
          refine ⟨?_, a₂, b₂, hsw, by rw [hpre]; rfl, hpost⟩
          simp only [List.mem_cons]
          rintro (hc | hc)
          · exact hx hc.symm
          · exact hnm hc

theorem splitLast_some {c : Char} {l p s : List Char}
    (h : splitLast c l = some (p, s)) : l = p ++ c :: s ∧ c ∉ s := by
  unfold splitLast at h
  revert h
  cases hs : splitFirst c l.reverse with
  | none => intro h; cases h
  | some ab =>
    obtain ⟨a, b⟩ := ab
    intro h
    cases h
    obtain ⟨hl, hna⟩ := splitFirst_some hs
    constructor
    · have := congrArg List.reverse hl
      simpa using this
    · simpa using hna

theorem splitLast_none {c : Char} {l : List Char}
    (h : splitLast c l = none) : c ∉ l := by
  unfold splitLast at h
  revert h
  cases hs : splitFirst c l.reverse with
  | none =>
    intro _ hc
    exact splitFirst_none hs (by simpa using hc)
  | some ab => obtain ⟨a, b⟩ := ab; intro h; cases h

theorem splitLast_of_parts {c : Char} (p : List Char) {s : List Char}
    (h : c ∉ s) : splitLast c (p ++ c :: s) = some (p, s) := by
  unfold splitLast
  have hrev : (p ++ c :: s).reverse = s.reverse ++ c :: p.reverse := by
    simp
  rw [hrev, splitFirst_of_parts _ (by simpa using h)]
  simp

/-! `takeWhile` / `dropWhile` / `filter` facts. -/

theorem takeWhile_all {p : Char → Bool} {l : List Char}
    (h : ∀ c ∈ l, p c = true) : l.takeWhile p = l := by
  induction l with
  | nil => rfl
  | cons x xs ih =>
    rw [List.takeWhile_cons, if_pos (h x (List.mem_cons_self x xs))]
    rw [ih (fun c hc => h c (List.mem_cons_of_mem _ hc))]

theorem dropWhile_all {p : Char → Bool} {l : List Char}
    (h : ∀ c ∈ l, p c = true) : l.dropWhile p = [] := by
  induction l with
  | nil => rfl
  | cons x xs ih =>
    rw [List.dropWhile_cons, if_pos (h x (List.mem_cons_self x xs))]
    exact ih (fun c hc => h c (List.mem_cons_of_mem _ hc))

theorem takeWhile_cons_false {p : Char → Bool} {x : Char} (xs : List Char)
    (h : p x = false) : (x :: xs).takeWhile p = [] := by
  rw [List.takeWhile_cons, if_neg (by rw [h]; exact Bool.false_ne_true)]

theorem dropWhile_cons_false {p : Char → Bool} {x : Char} (xs : List Char)
    (h : p x = false) : (x :: xs).dropWhile p = x :: xs := by
  rw [List.dropWhile_cons, if_neg (by rw [h]; exact Bool.false_ne_true)]

theorem takeWhile_append_all {p : Char → Bool} {l : List Char}
    (w : List Char) (h : ∀ c ∈ l, p c = true) :
    (l ++ w).takeWhile p = l ++ w.takeWhile p := by
  induction l with
  | nil => rfl
  | cons x xs ih =>
    rw [List.cons_append, List.takeWhile_cons,
      if_pos (h x (List.mem_cons_self x xs)),
      ih (fun c hc => h c (List.mem_cons_of_mem _ hc)), List.cons_append]

theorem dropWhile_append_all {p : Char → Bool} {l : List Char}
    (w : List Char) (h : ∀ c ∈ l, p c = true) :
    (l ++ w).dropWhile p = w.dropWhile p := by
  induction l with
  | nil => rfl
  | cons x xs ih =>
    rw [List.cons_append, List.dropWhile_cons,
      if_pos (h x (List.mem_cons_self x xs))]
    exact ih (fun c hc => h c (List.mem_cons_of_mem _ hc))

theorem filter_all {p : Char → Bool} {l : List Char}
    (h : ∀ c ∈ l, p c = true) : l.filter p = l := by
  induction l with
  | nil => rfl
  | cons x xs ih =>
    rw [List.filter_cons, if_pos (h x (List.mem_cons_self x xs)),
      ih (fun c hc => h c (List.mem_cons_of_mem _ hc))]

theorem mem_takeWhile_sub {p : Char → Bool} {l : List Char} {c : Char}
    (h : c ∈ l.takeWhile p) : c ∈ l :=
  (List.takeWhile_sublist p).mem h

theorem mem_dropWhile_sub {p : Char → Bool} {l : List Char} {c : Char}
    (h : c ∈ l.dropWhile p) : c ∈ l :=
  (List.dropWhile_sublist p).mem h

theorem takeWhile_pred {p : Char → Bool} {l : List Char} {c : Char}
    (h : c ∈ l.takeWhile p) : p c = true := by
  induction l with
  | nil => cases h
  | cons x xs ih =>
    rw [List.takeWhile_cons] at h
    by_cases hx : p x = true
    · rw [if_pos hx] at h
      rcases List.mem_cons.mp h with rfl | h
      · exact hx
      · exact ih h
    · rw [if_neg hx] at h
      cases h

theorem dropWhile_head_false {p : Char → Bool} {l : List Char} {c : Char}
    (h : (l.dropWhile p).head? = some c) : p c = false := by
  induction l with
  | nil => cases h
  | cons x xs ih =>
    rw [List.dropWhile_cons] at h
    by_cases hx : p x = true
    · rw [if_pos hx] at h
      exact ih h
    · rw [if_neg hx] at h
      cases h
      exact Bool.eq_false_iff.mpr hx

/-! `splitnetloc` facts. -/

theorem splitnetloc_parts {n y : List Char}
    (hn : ∀ c ∈ n, isNetlocDelim c = false)
    (hy : y = [] ∨ ∃ c0, y.head? = some c0 ∧ isNetlocDelim c0 = true) :
    splitnetloc (n ++ y) = (n, y) := by
  unfold splitnetloc
  have hnp : ∀ c ∈ n, (!isNetlocDelim c) = true := by
    intro c hc
    rw [hn c hc]
    rfl
  rcases hy with rfl | ⟨c0, hc0, hd⟩
  · rw [List.append_nil, takeWhile_all hnp, dropWhile_all hnp]
  · cases y with
    | nil => cases hc0
    | cons y0 ys =>
      cases hc0
      rw [takeWhile_append_all _ hnp, dropWhile_append_all _ hnp,
        takeWhile_cons_false _ (by rw [hd]; rfl),
        dropWhile_cons_false _ (by rw [hd]; rfl), List.append_nil]

theorem splitnetloc_append_delim {z w : List Char} {d : Char}
    (hd : isNetlocDelim d = true) :
    splitnetloc (z ++ d :: w) =
      ((splitnetloc z).1, (splitnetloc z).2 ++ d :: w) := by
  unfold splitnetloc
  induction z with
  | nil =>
    simp only [List.nil_append]
    rw [takeWhile_cons_false _ (by rw [hd]; rfl),
      dropWhile_cons_false _ (by rw [hd]; rfl)]
    simp
  | cons x xs ih =>
    rw [List.cons_append, List.takeWhile_cons, List.dropWhile_cons,
      List.takeWhile_cons, List.dropWhile_cons]
    by_cases hx : (!isNetlocDelim x) = true
    · rw [if_pos hx, if_pos hx, if_pos hx, if_pos hx]
      have := ih
      simp only [Prod.mk.injEq] at this ⊢
      exact ⟨by rw [this.1], by rw [this.2]⟩
    · rw [if_neg hx, if_neg hx, if_neg hx, if_neg hx]
      simp

theorem splitnetloc_eq (z : List Char) :
    z = (splitnetloc z).1 ++ (splitnetloc z).2 := by
  unfold splitnetloc
  rw [List.takeWhile_append_dropWhile]

/-! `stripUrl` facts. -/

theorem stripUrl_eq_self {v : List Char}
    (hnt : ∀ c ∈ v, isUnsafeUrlByte c = false)
    (hh : ∀ c, v.head? = some c → isC0OrSpace c = false) :
    stripUrl v = v := by
  unfold stripUrl
  have hdw : v.dropWhile isC0OrSpace = v := by
    cases v with
    | nil => rfl
    | cons x xs => exact dropWhile_cons_false _ (hh x rfl)
  rw [hdw]
  refine filter_all (fun c hc => ?_)
  rw [hnt c hc]
  rfl

theorem stripUrl_no_unsafe {u : List Char} :
    ∀ c ∈ stripUrl u, isUnsafeUrlByte c = false := by
  intro c hc
  unfold stripUrl at hc
  have := List.of_mem_filter hc
  simpa using this

theorem stripUrl_head_gt {u : List Char} {c : Char}
    (h : (stripUrl u).head? = some c) : 32 < c.toNat := by
  unfold stripUrl at h
  revert h
  cases hdw : u.dropWhile isC0OrSpace with
  | nil => intro h; cases h
  | cons x xs =>
    intro h
    have hx : isC0OrSpace x = false := by
      have : (u.dropWhile isC0OrSpace).head? = some x := by rw [hdw]; rfl
      exact dropWhile_head_false this
    have hxnat : 32 < x.toNat := by
      unfold isC0OrSpace at hx
      rw [decide_eq_false_iff_not] at hx
      omega
    have hxs : isUnsafeUrlByte x = false :=
      isUnsafe_false_of_toNat ⟨by omega, by omega, by omega⟩
    rw [List.filter_cons, if_pos (by rw [hxs]; rfl)] at h
    cases h
    exact hxnat

theorem stripUrl_append_mark {u w : List Char} {d : Char}
    (hd1 : isC0OrSpace d = false) (hd2 : isUnsafeUrlByte d = false) :
    stripUrl (u ++ d :: w) =
      stripUrl u ++ d :: w.filter (fun c => !isUnsafeUrlByte c) := by
  unfold stripUrl
  have hdw : (u ++ d :: w).dropWhile isC0OrSpace =
      u.dropWhile isC0OrSpace ++ d :: w := by
    induction u with
    | nil =>
      simp only [List.nil_append]
      exact dropWhile_cons_false _ hd1
    | cons x xs ih =>
      rw [List.cons_append, List.dropWhile_cons, List.dropWhile_cons]
      by_cases hx : isC0OrSpace x = true
      · rw [if_pos hx, if_pos hx]
        exact ih
      · rw [if_neg hx, if_neg hx, List.cons_append]
  rw [hdw, List.filter_append, List.filter_cons, if_pos (by rw [hd2]; rfl)]

/-! `detectScheme` facts. -/

theorem colon_not_mem {l : List Char} (h : l.all isSchemeChar = true) :
    ':' ∉ l := by
  intro hc
  rw [List.all_eq_true] at h
  exact absurd (h ':' hc) (by decide)

theorem detectScheme_spec {u s r : List Char}
    (h : detectScheme u = some (s, r)) :
    ∃ c0 pre, u = (c0 :: pre) ++ ':' :: r ∧ isAsciiAlpha c0 = true ∧
      (c0 :: pre).all isSchemeChar = true ∧
      s = (c0 :: pre).map asciiLower := by
  unfold detectScheme at h
  revert h
  cases hsf : splitFirst ':' u with
  | none => intro h; cases h
  | some ab =>
    obtain ⟨pre, post⟩ := ab
    cases pre with
    | nil => intro h; cases h
    | cons c0 rest =>
      intro h
      have h' : (if isAsciiAlpha c0 && (c0 :: rest).all isSchemeChar then
          some ((c0 :: rest).map asciiLower, post) else none) =
          some (s, r) := h
      by_cases hv : (isAsciiAlpha c0 && (c0 :: rest).all isSchemeChar) = true
      · rw [if_pos hv] at h'
        cases h'
        obtain ⟨hu, _⟩ := splitFirst_some hsf
        rw [Bool.and_eq_true] at hv
        exact ⟨c0, rest, hu, hv.1, hv.2, rfl⟩
      · rw [if_neg hv] at h'
        cases h'

theorem detectScheme_valid_parts {c0 : Char} {pre : List Char}
    (post : List Char) (ha : isAsciiAlpha c0 = true)
    (hall : (c0 :: pre).all isSchemeChar = true) :
    detectScheme ((c0 :: pre) ++ ':' :: post) =
      some ((c0 :: pre).map asciiLower, post) := by
  unfold detectScheme
  rw [splitFirst_of_parts post (colon_not_mem hall)]
  show (if isAsciiAlpha c0 && (c0 :: pre).all isSchemeChar then
    some ((c0 :: pre).map asciiLower, post) else none) = _
  rw [if_pos (by rw [ha, hall]; rfl)]

theorem detectScheme_build {c0 : Char} {pre : List Char} (w : List Char)
    (ha : isAsciiAlpha c0 = true)
    (hall : (c0 :: pre).all isSchemeChar = true) :
    detectScheme (((c0 :: pre).map asciiLower) ++ ':' :: w) =
      some ((c0 :: pre).map asciiLower, w) := by
  have ha' : isAsciiAlpha (asciiLower c0) = true := isAsciiAlpha_asciiLower ha
  have hall' : (asciiLower c0 :: pre.map asciiLower).all isSchemeChar
      = true := by
    rw [List.all_eq_true]
    intro x hx
    rcases List.mem_cons.mp hx with rfl | hx
    · exact isSchemeChar_asciiLower (isSchemeChar_of_alpha ha)
    · obtain ⟨y, hy, rfl⟩ := List.mem_map.mp hx
      rw [List.all_eq_true] at hall
      exact isSchemeChar_asciiLower (hall y (List.mem_cons_of_mem _ hy))
  have hmap : (c0 :: pre).map asciiLower =
      asciiLower c0 :: pre.map asciiLower := rfl
  rw [hmap]
  rw [detectScheme_valid_parts w ha' hall']
  have hidem : (asciiLower c0 :: pre.map asciiLower).map asciiLower =
      asciiLower c0 :: pre.map asciiLower := by
    have h2 := map_asciiLower_idem (c0 :: pre)
    rw [hmap] at h2
    exact h2
  rw [hidem]

theorem detectScheme_slash (w : List Char) :
    detectScheme ('/' :: w) = none := by
  unfold detectScheme
  cases hsf : splitFirst ':' ('/' :: w) with
  | none => rfl
  | some ab =>
    obtain ⟨pre, post⟩ := ab
    obtain ⟨hl, hnm⟩ := splitFirst_some hsf
    cases pre with
    | nil => rfl
    | cons c0 rest =>
      rw [List.cons_append] at hl
      injection hl with h1 h2
      subst h1
      show (if isAsciiAlpha '/' && ('/' :: rest).all isSchemeChar then
        some (('/' :: rest).map asciiLower, post) else none) = none
      rw [if_neg]
      rw [Bool.and_eq_true]
      rintro ⟨hbad, _⟩
      exact absurd hbad (by decide)

theorem detectScheme_append_left {U s r : List Char} (t : List Char)
    (h : detectScheme U = some (s, r)) :
    detectScheme (U ++ t) = some (s, r ++ t) := by
  obtain ⟨c0, pre, hu, ha, hall, hs⟩ := detectScheme_spec h
  have he : U ++ t = (c0 :: pre) ++ ':' :: (r ++ t) := by
    rw [hu]; simp
  rw [he, detectScheme_valid_parts (r ++ t) ha hall, hs]

theorem detectScheme_append_mark_none {U w : List Char} {d : Char}
    (hdc : d ≠ ':') (hds : isSchemeChar d = false)
    (hda : isAsciiAlpha d = false) (h : detectScheme U = none) :
    detectScheme (U ++ d :: w) = none := by
  cases hc : detectScheme (U ++ d :: w) with
  | none => rfl
  | some sr =>
    obtain ⟨s, r⟩ := sr
    obtain ⟨c0, pre, hu, ha, hall, hs⟩ := detectScheme_spec hc
    have hsf : splitFirst ':' (U ++ d :: w) = some (c0 :: pre, r) := by
      rw [hu, List.cons_append]
      have : (c0 :: pre) ++ ':' :: r = c0 :: (pre ++ ':' :: r) := by simp
      rw [← this]
      exact splitFirst_of_parts _ (colon_not_mem hall)
    rcases splitFirst_append_cases hsf with
      ⟨post₀, hsU, _⟩ | ⟨_, a, b, hsw, hpre, _⟩
    · obtain ⟨hUeq, _⟩ := splitFirst_some hsU
      have : detectScheme U = some ((c0 :: pre).map asciiLower, post₀) := by
        rw [hUeq]
        exact detectScheme_valid_parts post₀ ha hall
      rw [this] at h
      cases h
    · rw [splitFirst, if_neg (fun he => hdc he)] at hsw
      revert hsw
      cases hw : splitFirst ':' w with
      | none => intro hsw; cases hsw
      | some ab₂ =>
        obtain ⟨a₂, b₂⟩ := ab₂
        intro hsw
        cases hsw
        cases U with
        | nil =>
          simp only [List.nil_append] at hpre
          injection hpre with hc0 _
          rw [hc0] at ha
          rw [hda] at ha
          exact absurd ha Bool.false_ne_true
        | cons u0 U₂ =>
          rw [List.cons_append] at hpre
          injection hpre with _ hpre₂
          have hdm : d ∈ pre := by
            rw [hpre₂]
            exact List.mem_append_right _ (List.mem_cons_self _ _)
          rw [List.all_eq_true] at hall
          have := hall d (List.mem_cons_of_mem _ hdm)
          rw [hds] at this
          exact absurd this Bool.false_ne_true

/-! `splitFragQuery` facts. -/

/-- The text before the first occurrence of `c` (the whole list when `c` is
absent); proof-layer view of the fragment and query splits. -/
def firstPart (c : Char) (x : List Char) : List Char :=
  match splitFirst c x with
  | none => x
  | some (a, _) => a

theorem firstPart_no_mem {c : Char} {x : List Char} (h : c ∉ x) :
    firstPart c x = x := by
  unfold firstPart
  rw [splitFirst_not_mem h]

theorem not_mem_firstPart (c : Char) (x : List Char) :
    c ∉ firstPart c x := by
  unfold firstPart
  cases hs : splitFirst c x with
  | none => exact splitFirst_none hs
  | some ab =>
    obtain ⟨a, b⟩ := ab
    exact (splitFirst_some hs).2

theorem firstPart_is_prefix_of (c : Char) (x : List Char) :
    ∃ t, x = firstPart c x ++ t := by
  unfold firstPart
  cases hs : splitFirst c x with
  | none => exact ⟨[], by simp⟩
  | some ab =>
    obtain ⟨a, b⟩ := ab
    exact ⟨c :: b, (splitFirst_some hs).1⟩

theorem firstPart_append_self (c : Char) (rest w : List Char) :
    firstPart c (rest ++ c :: w) = firstPart c rest := by
  unfold firstPart
  cases hs : splitFirst c rest with
  | none =>
    rw [splitFirst_of_parts w (splitFirst_none hs)]
  | some ab =>
    obtain ⟨a, b⟩ := ab
    rw [splitFirst_append_left (c :: w) hs]

theorem splitFragQuery_fst (rest : List Char) :
    (splitFragQuery rest).1 = firstPart '?' (firstPart '#' rest) := by
  unfold splitFragQuery firstPart
  cases splitFirst '#' rest with
  | none =>
    dsimp only
    cases splitFirst '?' rest <;> rfl
  | some ab =>
    obtain ⟨a, b⟩ := ab
    dsimp only
    cases splitFirst '?' a <;> rfl

theorem splitFragQuery_no_marks (rest : List Char) :
    '#' ∉ (splitFragQuery rest).1 ∧ '?' ∉ (splitFragQuery rest).1 ∧
      ∃ t, rest = (splitFragQuery rest).1 ++ t := by
  rw [splitFragQuery_fst]
  refine ⟨?_, not_mem_firstPart _ _, ?_⟩
  · intro hmem
    obtain ⟨t1, ht1⟩ := firstPart_is_prefix_of '?' (firstPart '#' rest)
    have : '#' ∈ firstPart '#' rest := by
      rw [ht1]
      exact List.mem_append_left _ hmem
    exact not_mem_firstPart '#' rest this
  · obtain ⟨t1, ht1⟩ := firstPart_is_prefix_of '#' rest
    obtain ⟨t2, ht2⟩ := firstPart_is_prefix_of '?' (firstPart '#' rest)
    refine ⟨t2 ++ t1, ?_⟩
    rw [← List.append_assoc, ← ht2, ← ht1]

theorem splitFragQuery_of_no_marks {y : List Char} (hf : '#' ∉ y)
    (hq : '?' ∉ y) : splitFragQuery y = (y, [], []) := by
  unfold splitFragQuery
  simp only [splitFirst_not_mem hf, splitFirst_not_mem hq]

theorem splitFragQuery_fst_append_mark {rest w : List Char} {d : Char}
    (hd : d = '#' ∨ d = '?') :
    (splitFragQuery (rest ++ d :: w)).1 = (splitFragQuery rest).1 := by
  rw [splitFragQuery_fst, splitFragQuery_fst]
  rcases hd with rfl | rfl
  · rw [firstPart_append_self]
  · cases hs : splitFirst '#' rest with
    | some ab =>
      obtain ⟨a, b⟩ := ab
      have h1 : firstPart '#' rest = a := by
        unfold firstPart
        rw [hs]
      have h2 : firstPart '#' (rest ++ '?' :: w) = a := by
        unfold firstPart
        rw [splitFirst_append_left _ hs]
      rw [h1, h2]
    | none =>
      have h1 : firstPart '#' rest = rest := firstPart_no_mem
        (splitFirst_none hs)
      rw [h1]
      cases hc : splitFirst '#' (rest ++ '?' :: w) with
      | none =>
        have h2 : firstPart '#' (rest ++ '?' :: w) = rest ++ '?' :: w :=
          firstPart_no_mem (splitFirst_none hc)
        rw [h2, firstPart_append_self]
      | some AB =>
        obtain ⟨A, B⟩ := AB
        have h2 : firstPart '#' (rest ++ '?' :: w) = A := by
          unfold firstPart
          rw [hc]
        rw [h2]
        rcases splitFirst_append_cases hc with
          ⟨post₀, hsr, _⟩ | ⟨_, a₂, b₂, hsw, hA, _⟩
        · rw [hs] at hsr
          cases hsr
        · rw [splitFirst, if_neg (by decide)] at hsw
          revert hsw
          cases hw : splitFirst '#' w with
          | none => intro hsw; cases hsw
          | some ab₃ =>
            obtain ⟨a₃, b₃⟩ := ab₃
            intro hsw
            cases hsw
            rw [hA]
            exact firstPart_append_self '?' rest a₃

/-! `splitparams` / `paramSplit` facts. -/

/-- The path-with-parameters text that `urlunparse` rebuilds from the result
of the parameter split: `recombine (paramSplit s x)`. -/
def normPathParams (s x : List Char) : List Char :=
  recombine (paramSplit s x).1 (paramSplit s x).2

theorem recombine_paramSplit (s x : List Char) :
    recombine (paramSplit s x).1 (paramSplit s x).2 = normPathParams s x :=
  rfl

theorem splitparams_reassemble {x a b : List Char} (hin : ';' ∈ x)
    (h : splitparams x = (a, b)) (hb : b ≠ []) : a ++ ';' :: b = x := by
  unfold splitparams at h
  revert h
  cases hsl : splitLast '/' x with
  | some ps =>
    obtain ⟨p, seg⟩ := ps
    obtain ⟨hx, hns⟩ := splitLast_some hsl
    dsimp only
    cases hfs : splitFirst ';' seg with
    | none =>
      dsimp only
      intro h
      cases h
      exact absurd rfl hb
    | some ab =>
      obtain ⟨s1, s2⟩ := ab
      dsimp only
      intro h
      cases h
      obtain ⟨hseg, _⟩ := splitFirst_some hfs
      rw [hx, hseg]
      simp
  | none =>
    dsimp only
    cases hfs : splitFirst ';' x with
    | none =>
      exact absurd hin (splitFirst_none hfs)
    | some ab =>
      obtain ⟨a', b'⟩ := ab
      dsimp only
      intro h
      cases h
      exact (splitFirst_some hfs).1.symm

theorem splitparams_empty_snd {x a : List Char} (hin : ';' ∈ x)
    (h : splitparams x = (a, [])) : a = x ∨ x = a ++ [';'] := by
  unfold splitparams at h
  revert h
  cases hsl : splitLast '/' x with
  | some ps =>
    obtain ⟨p, seg⟩ := ps
    obtain ⟨hx, hns⟩ := splitLast_some hsl
    dsimp only
    cases hfs : splitFirst ';' seg with
    | none =>
      dsimp only
      intro h
      cases h
      exact Or.inl rfl
    | some ab =>
      obtain ⟨s1, s2⟩ := ab
      dsimp only
      intro h
      cases h
      obtain ⟨hseg, _⟩ := splitFirst_some hfs
      right
      rw [hx, hseg]
      simp
  | none =>
    dsimp only
    cases hfs : splitFirst ';' x with
    | none =>
      exact absurd hin (splitFirst_none hfs)
    | some ab =>
      obtain ⟨a', b'⟩ := ab
      dsimp only
      intro h
      cases h
      exact Or.inr (splitFirst_some hfs).1

theorem normPathParams_shape (s x : List Char) :
    normPathParams s x = x ∨ x = normPathParams s x ++ [';'] := by
  unfold normPathParams paramSplit
  by_cases hg : s ∈ usesParams ∧ ';' ∈ x
  · rw [if_pos hg]
    rcases hsp : splitparams x with ⟨a, b⟩
    dsimp only
    by_cases hb : b = []
    · subst hb
      have hra : recombine a [] = a := by
        unfold recombine
        simp
      rw [hra]
      rcases splitparams_empty_snd hg.2 hsp with h | h
      · exact Or.inl h
      · exact Or.inr h
    · left
      unfold recombine
      rw [if_pos hb]
      exact splitparams_reassemble hg.2 hsp hb
  · rw [if_neg hg]
    left
    unfold recombine
    simp

theorem normPathParams_no_semi {s a : List Char} (h : ';' ∉ a) :
    normPathParams s a = a := by
  unfold normPathParams paramSplit
  rw [if_neg (fun hc => h hc.2)]
  unfold recombine
  simp

theorem splitparams_seg_form {p s1 : List Char} (h1 : ';' ∉ s1)
    (h2 : '/' ∉ s1) : splitparams (p ++ '/' :: s1) = (p ++ '/' :: s1, []) := by
  simp [splitparams, splitLast_of_parts p h2, splitFirst_not_mem h1]

theorem normPathParams_seg_form {s p s1 : List Char} (h1 : ';' ∉ s1)
    (h2 : '/' ∉ s1) : normPathParams s (p ++ '/' :: s1) = p ++ '/' :: s1 := by
  unfold normPathParams paramSplit
  by_cases hg : s ∈ usesParams ∧ ';' ∈ p ++ '/' :: s1
  · rw [if_pos hg, splitparams_seg_form h1 h2]
    unfold recombine
    simp
  · rw [if_neg hg]
    unfold recombine
    simp

theorem normPathParams_idem (s x : List Char) :
    normPathParams s (normPathParams s x) = normPathParams s x := by
  by_cases hg : s ∈ usesParams ∧ ';' ∈ x
  · rcases hsp : splitparams x with ⟨a, b⟩
    have hNP : normPathParams s x = recombine a b := by
      unfold normPathParams paramSplit
      rw [if_pos hg, hsp]
    by_cases hb : b = []
    · subst hb
      have hra : recombine a [] = a := by
        unfold recombine
        simp
      rw [hra] at hNP
      rw [hNP]
      unfold splitparams at hsp
      revert hsp
      cases hsl : splitLast '/' x with
      | some ps =>
        obtain ⟨p, seg⟩ := ps
        obtain ⟨hx, hns⟩ := splitLast_some hsl
        dsimp only
        cases hfs : splitFirst ';' seg with
        | none =>
          dsimp only
          intro hsp
          cases hsp
          exact hNP
        | some ab =>
          obtain ⟨s1, s2⟩ := ab
          dsimp only
          intro hsp
          cases hsp
          obtain ⟨hseg, hnsem⟩ := splitFirst_some hfs
          have h2 : '/' ∉ s1 := fun hc =>
            hns (by rw [hseg]; exact List.mem_append_left _ hc)
          exact normPathParams_seg_form hnsem h2
      | none =>
        dsimp only
        cases hfs : splitFirst ';' x with
        | none =>
          intro _
          exact absurd hg.2 (splitFirst_none hfs)
        | some ab =>
          obtain ⟨a', b'⟩ := ab
          dsimp only
          intro hsp
          cases hsp
          exact normPathParams_no_semi (splitFirst_some hfs).2
    · have hx : recombine a b = x := by
        unfold recombine
        rw [if_pos hb]
        exact splitparams_reassemble hg.2 hsp hb
      rw [hx] at hNP
      rw [hNP]
      exact hNP
  · have hNP : normPathParams s x = x := by
      unfold normPathParams paramSplit
      rw [if_neg hg]
      unfold recombine
      simp
    rw [hNP]
    exact hNP

/-! Further `splitFragQuery` / `splitnetloc` facts for re-parsing rebuilt
URLs. -/

theorem firstPart_cons_self (c : Char) (w : List Char) :
    firstPart c (c :: w) = [] := by
  unfold firstPart
  rw [splitFirst, if_pos rfl]

theorem firstPart_cons_ne {c x : Char} (w : List Char) (h : x ≠ c) :
    ∃ t, firstPart c (x :: w) = x :: t := by
  unfold firstPart
  rw [splitFirst, if_neg h]
  cases hs : splitFirst c w with
  | none => exact ⟨w, rfl⟩
  | some ab =>
    obtain ⟨a, b⟩ := ab
    exact ⟨a, rfl⟩

theorem splitFragQuery_fst_delim_head {w : List Char} {d : Char}
    (hd : d = '#' ∨ d = '?') : (splitFragQuery (d :: w)).1 = [] := by
  rw [splitFragQuery_fst]
  rcases hd with rfl | rfl
  · rw [firstPart_cons_self]
    rfl
  · obtain ⟨t, ht⟩ := firstPart_cons_ne (c := '#') (x := '?') w (by decide)
    rw [ht, firstPart_cons_self]

theorem take2_append_mark {r w : List Char} {d : Char} (hd : d ≠ '/') :
    (r ++ d :: w).take 2 = ['/', '/'] ↔ r.take 2 = ['/', '/'] := by
  match r with
  | [] =>
    simp only [List.nil_append, List.take]
    constructor
    · intro h
      cases w with
      | nil => cases h
      | cons e t =>
        simp only [List.take, List.cons.injEq] at h
        exact absurd h.1 hd
    · intro h
      cases h
  | [a] =>
    simp only [List.cons_append, List.nil_append, List.take,
      List.cons.injEq] at *
    constructor
    · intro h
      exact absurd h.2.1 hd
    · intro h
      exact absurd h.2 (by intro hc; cases hc)
  | a :: b :: t =>
    simp [List.take]

theorem drop2_append {r : List Char} (t : List Char)
    (h : r.take 2 = ['/', '/']) : (r ++ t).drop 2 = r.drop 2 ++ t := by
  match r with
  | [] => cases h
  | [a] => cases h
  | a :: b :: r2 => simp

theorem split_tail_append_mark {y w : List Char} {d : Char}
    (hd : d = '#' ∨ d = '?') :
    (splitnetloc (y ++ d :: w)).1 = (splitnetloc y).1 ∧
      (splitFragQuery ((splitnetloc (y ++ d :: w)).2)).1 =
        (splitFragQuery ((splitnetloc y).2)).1 := by
  have hdel : isNetlocDelim d = true := by
    rcases hd with rfl | rfl <;> decide
  rw [splitnetloc_append_delim hdel]
  exact ⟨rfl, splitFragQuery_fst_append_mark hd⟩

/-- The tail of `urlsplit` after scheme recognition: everything done with the
scheme already fixed and the remaining text `rest` (proof-layer view). -/
def splitRest (hostOk netlocOk : List Char → Bool) (scheme rest : List Char) :
    Option SplitParts :=
  if rest.take 2 = ['/', '/'] then
    let nl := splitnetloc (rest.drop 2)
    let netloc := nl.1
    if netloc.contains '[' != netloc.contains ']' then none
    else if netloc.contains '[' && netloc.contains ']' &&
        !hostOk (bracketedHost netloc) then none
    else
      let pqf := splitFragQuery nl.2
      if checknetloc netlocOk netloc then
        some ⟨scheme, netloc, pqf.1, pqf.2.1, pqf.2.2⟩
      else none
  else
    let pqf := splitFragQuery rest
    some ⟨scheme, [], pqf.1, pqf.2.1, pqf.2.2⟩

theorem urlsplit_eq (hostOk netlocOk : List Char → Bool) (d u0 : List Char) :
    urlsplit hostOk netlocOk d u0 =
      match detectScheme (stripUrl u0) with
      | some (s, r) => splitRest hostOk netlocOk s r
      | none => splitRest hostOk netlocOk (stripScheme d) (stripUrl u0) := by
  unfold urlsplit splitRest
  dsimp only
  cases detectScheme (stripUrl u0) with
  | none => rfl
  | some sr =>
    obtain ⟨s, r⟩ := sr
    rfl

theorem urlsplit_some_scheme {hostOk netlocOk : List Char → Bool}
    {d u0 s r : List Char} (h : detectScheme (stripUrl u0) = some (s, r)) :
    urlsplit hostOk netlocOk d u0 = splitRest hostOk netlocOk s r := by
  rw [urlsplit_eq, h]

theorem urlsplit_none_scheme {hostOk netlocOk : List Char → Bool}
    {u0 : List Char} (h : detectScheme (stripUrl u0) = none) :
    urlsplit hostOk netlocOk [] u0 =
      splitRest hostOk netlocOk [] (stripUrl u0) := by
  rw [urlsplit_eq, h]
  rfl

theorem splitRest_append_mark (hostOk netlocOk : List Char → Bool)
    (S R w : List Char) {d : Char} (hd : d = '#' ∨ d = '?') :
    (splitRest hostOk netlocOk S (R ++ d :: w)).map
        (fun p => (p.scheme, p.netloc, p.path)) =
      (splitRest hostOk netlocOk S R).map
        (fun p => (p.scheme, p.netloc, p.path)) := by
  have hdne : d ≠ '/' := by rcases hd with rfl | rfl <;> decide
  unfold splitRest
  dsimp only
  by_cases ht : R.take 2 = ['/', '/']
  · rw [if_pos ((take2_append_mark hdne).mpr ht), if_pos ht,
      drop2_append (d :: w) ht]
    obtain ⟨h1, h2⟩ := split_tail_append_mark (y := R.drop 2) (w := w) hd
    rw [h1]
    by_cases hb1 : ((splitnetloc (R.drop 2)).1.contains '[' !=
        (splitnetloc (R.drop 2)).1.contains ']') = true
    · rw [if_pos hb1, if_pos hb1]
    · rw [if_neg hb1, if_neg hb1]
      by_cases hb2 : ((splitnetloc (R.drop 2)).1.contains '[' &&
          (splitnetloc (R.drop 2)).1.contains ']' &&
          !hostOk (bracketedHost (splitnetloc (R.drop 2)).1)) = true
      · rw [if_pos hb2, if_pos hb2]
      · rw [if_neg hb2, if_neg hb2]
        by_cases hcn : checknetloc netlocOk (splitnetloc (R.drop 2)).1 = true
        · rw [if_pos hcn, if_pos hcn]
          simp only [Option.map_some']
          rw [h2]
        · rw [if_neg hcn, if_neg hcn]
  · rw [if_neg (fun hc => ht ((take2_append_mark hdne).mp hc)), if_neg ht]
    simp only [Option.map_some']
    rw [splitFragQuery_fst_append_mark hd]

theorem urlsplit_append_mark (hostOk netlocOk : List Char → Bool)
    (u w : List Char) {d : Char} (hd : d = '#' ∨ d = '?') :
    (urlsplit hostOk netlocOk [] (u ++ d :: w)).map
        (fun p => (p.scheme, p.netloc, p.path)) =
      (urlsplit hostOk netlocOk [] u).map
        (fun p => (p.scheme, p.netloc, p.path)) := by
  have hd1 : isC0OrSpace d = false := by rcases hd with rfl | rfl <;> decide
  have hd2 : isUnsafeUrlByte d = false := by rcases hd with rfl | rfl <;> decide
  have hst : stripUrl (u ++ d :: w) =
      stripUrl u ++ d :: w.filter (fun c => !isUnsafeUrlByte c) :=
    stripUrl_append_mark hd1 hd2
  cases hdet : detectScheme (stripUrl u) with
  | some sr =>
    obtain ⟨s, r⟩ := sr
    have hdet2 : detectScheme (stripUrl (u ++ d :: w)) =
        some (s, r ++ d :: w.filter (fun c => !isUnsafeUrlByte c)) := by
      rw [hst]
      exact detectScheme_append_left _ hdet
    rw [urlsplit_some_scheme hdet2, urlsplit_some_scheme hdet]
    exact splitRest_append_mark hostOk netlocOk s r _ hd
  | none =>
    have hdc : d ≠ ':' := by rcases hd with rfl | rfl <;> decide
    have hds : isSchemeChar d = false := by rcases hd with rfl | rfl <;> decide
    have hda : isAsciiAlpha d = false := by rcases hd with rfl | rfl <;> decide
    have hdet2 : detectScheme (stripUrl (u ++ d :: w)) = none := by
      rw [hst]
      exact detectScheme_append_mark_none hdc hds hda hdet
    rw [urlsplit_none_scheme hdet2, urlsplit_none_scheme hdet, hst]
    exact splitRest_append_mark hostOk netlocOk [] (stripUrl u) _ hd

theorem normalize_url_append_mark (hostOk netlocOk : List Char → Bool)
    (u w : List Char) {d : Char} (hd : d = '#' ∨ d = '?') :
    normalize_url hostOk netlocOk (u ++ d :: w) =
      normalize_url hostOk netlocOk u := by
  have h := urlsplit_append_mark hostOk netlocOk u w hd
  unfold normalize_url urlparse
  cases hc : urlsplit hostOk netlocOk [] (u ++ d :: w) with
  | none =>
    rw [hc] at h
    cases hu : urlsplit hostOk netlocOk [] u with
    | none => rfl
    | some q =>
      rw [hu] at h
      simp only [Option.map_none', Option.map_some'] at h
      cases h
  | some p =>
    rw [hc] at h
    cases hu : urlsplit hostOk netlocOk [] u with
    | none =>
      rw [hu] at h
      simp only [Option.map_none', Option.map_some'] at h
      cases h
    | some q =>
      rw [hu] at h
      simp only [Option.map_some'] at h
      have h0 := Option.some.inj h
      have h1 : p.scheme = q.scheme := congrArg (fun z => z.1) h0
      have h2 : p.netloc = q.netloc := congrArg (fun z => z.2.1) h0
      have h3 : p.path = q.path := congrArg (fun z => z.2.2) h0
      simp only [Option.map_some']
      rw [h1, h2, h3]

theorem splitRest_some_inv {hostOk netlocOk : List Char → Bool}
    {S R : List Char} {sp : SplitParts}
    (h : splitRest hostOk netlocOk S R = some sp) (hn : sp.netloc ≠ []) :
    sp.scheme = S ∧
    (∀ c ∈ sp.netloc, isNetlocDelim c = false) ∧
    (∀ c, c ∈ sp.netloc → c ∈ R) ∧
    (sp.netloc.contains '[' != sp.netloc.contains ']') = false ∧
    (sp.netloc.contains '[' && sp.netloc.contains ']' &&
      !hostOk (bracketedHost sp.netloc)) = false ∧
    checknetloc netlocOk sp.netloc = true ∧
    '#' ∉ sp.path ∧ '?' ∉ sp.path ∧
    (sp.path = [] ∨ sp.path.head? = some '/') ∧
    (∀ c, c ∈ sp.path → c ∈ R) := by
  unfold splitRest at h
  dsimp only at h
  by_cases ht : R.take 2 = ['/', '/']
  · rw [if_pos ht] at h
    by_cases hb1 : ((splitnetloc (R.drop 2)).1.contains '[' !=
        (splitnetloc (R.drop 2)).1.contains ']') = true
    · rw [if_pos hb1] at h
      cases h
    · rw [if_neg hb1] at h
      by_cases hb2 : ((splitnetloc (R.drop 2)).1.contains '[' &&
          (splitnetloc (R.drop 2)).1.contains ']' &&
          !hostOk (bracketedHost (splitnetloc (R.drop 2)).1)) = true
      · rw [if_pos hb2] at h
        cases h
      · rw [if_neg hb2] at h
        by_cases hcn : checknetloc netlocOk (splitnetloc (R.drop 2)).1 = true
        · rw [if_pos hcn] at h
          cases h
          refine ⟨rfl, ?_, ?_, ?_, ?_, hcn, ?_, ?_, ?_, ?_⟩
          · intro c hc
            have h1 := takeWhile_pred hc
            cases hv : isNetlocDelim c
            · rfl
            · rw [hv] at h1
              exact absurd h1 (by decide)
          · intro c hc
            exact List.mem_of_mem_drop (mem_takeWhile_sub hc)
          · cases hv : ((splitnetloc (R.drop 2)).1.contains '[' !=
                (splitnetloc (R.drop 2)).1.contains ']')
            · rfl
            · exact absurd hv hb1
          · cases hv : ((splitnetloc (R.drop 2)).1.contains '[' &&
                (splitnetloc (R.drop 2)).1.contains ']' &&
                !hostOk (bracketedHost (splitnetloc (R.drop 2)).1))
            · rfl
            · exact absurd hv hb2
          · exact (splitFragQuery_no_marks _).1
          · exact (splitFragQuery_no_marks _).2.1
          · cases hnl : (splitnetloc (R.drop 2)).2 with
            | nil =>
              exact Or.inl rfl
            | cons x t =>
              have hxh : ((R.drop 2).dropWhile
                  (fun c => !isNetlocDelim c)).head? = some x := by
                have : (splitnetloc (R.drop 2)).2 =
                    (R.drop 2).dropWhile (fun c => !isNetlocDelim c) := rfl
                rw [← this, hnl]
                rfl
              have hxd := dropWhile_head_false hxh
              have hx3 : x = '/' ∨ x = '?' ∨ x = '#' := by
                cases hv : isNetlocDelim x
                · rw [hv] at hxd
                  exact absurd hxd (by decide)
                · revert hv
                  unfold isNetlocDelim
                  simp only [Bool.or_eq_true, beq_iff_eq]
                  intro hv
                  tauto
              rcases hx3 with rfl | hx | hx
              · obtain ⟨tt, htt⟩ := (splitFragQuery_no_marks ('/' :: t)).2.2
                cases hp : (splitFragQuery ('/' :: t)).1 with
                | nil => exact Or.inl rfl
                | cons p0 pr =>
                  right
                  rw [hp] at htt
                  simp only [List.cons_append, List.cons.injEq] at htt
                  cases htt.1
                  rfl
              · subst hx
                exact Or.inl (splitFragQuery_fst_delim_head (Or.inr rfl))
              · subst hx
                exact Or.inl (splitFragQuery_fst_delim_head (Or.inl rfl))
          · intro c hc
            obtain ⟨tt, htt⟩ := (splitFragQuery_no_marks
              ((splitnetloc (R.drop 2)).2)).2.2
            have hc2 : c ∈ (splitnetloc (R.drop 2)).2 := by
              rw [htt]
              exact List.mem_append_left _ hc
            exact List.mem_of_mem_drop (mem_dropWhile_sub hc2)
        · rw [if_neg hcn] at h
          cases h
  · rw [if_neg ht] at h
    cases h
    exact absurd rfl hn

theorem urlsplit_netloc_inv {hostOk netlocOk : List Char → Bool}
    {u : List Char} {sp : SplitParts}
    (h : urlsplit hostOk netlocOk [] u = some sp) (hn : sp.netloc ≠ []) :
    (sp.scheme = [] ∨
      ((∃ c0 r0, sp.scheme = c0 :: r0 ∧ isAsciiAlpha c0 = true) ∧
        sp.scheme.all isSchemeChar = true ∧
        sp.scheme.map asciiLower = sp.scheme)) ∧
    (∀ c ∈ sp.netloc, isUnsafeUrlByte c = false) ∧
    (∀ c ∈ sp.path, isUnsafeUrlByte c = false) ∧
    (∀ c ∈ sp.netloc, isNetlocDelim c = false) ∧
    (sp.netloc.contains '[' != sp.netloc.contains ']') = false ∧
    (sp.netloc.contains '[' && sp.netloc.contains ']' &&
      !hostOk (bracketedHost sp.netloc)) = false ∧
    checknetloc netlocOk sp.netloc = true ∧
    '#' ∉ sp.path ∧ '?' ∉ sp.path ∧
    (sp.path = [] ∨ sp.path.head? = some '/') := by
  cases hdet : detectScheme (stripUrl u) with
  | some sr =>
    obtain ⟨s, r⟩ := sr
    rw [urlsplit_some_scheme hdet] at h
    obtain ⟨hsch, hnd, hnr, hbr1, hbr2, hcn, hpf, hpq, hph, hpr⟩ :=
      splitRest_some_inv h hn
    obtain ⟨c0, pre, hu0, ha, hall, hs⟩ := detectScheme_spec hdet
    have hmem : ∀ c, c ∈ r → c ∈ stripUrl u := by
      intro c hc
      rw [hu0]
      exact List.mem_append_right _ (List.mem_cons_of_mem _ hc)
    refine ⟨?_, ?_, ?_, hnd, hbr1, hbr2, hcn, hpf, hpq, hph⟩
    · right
      rw [hsch, hs]
      refine ⟨⟨asciiLower c0, pre.map asciiLower, by simp, ?_⟩, ?_, ?_⟩
      · exact isAsciiAlpha_asciiLower ha
      · rw [List.all_eq_true]
        intro c hc
        obtain ⟨c1, hc1, hc1e⟩ := List.mem_map.mp hc
        rw [← hc1e]
        exact isSchemeChar_asciiLower
          ((List.all_eq_true.mp hall) c1 hc1)
      · exact map_asciiLower_idem _
    · intro c hc
      exact stripUrl_no_unsafe c (hmem c (hnr c hc))
    · intro c hc
      exact stripUrl_no_unsafe c (hmem c (hpr c hc))
  | none =>
    rw [urlsplit_none_scheme hdet] at h
    obtain ⟨hsch, hnd, hnr, hbr1, hbr2, hcn, hpf, hpq, hph, hpr⟩ :=
      splitRest_some_inv h hn
    refine ⟨Or.inl hsch, ?_, ?_, hnd, hbr1, hbr2, hcn, hpf, hpq, hph⟩
    · intro c hc
      exact stripUrl_no_unsafe c (hnr c hc)
    · intro c hc
      exact stripUrl_no_unsafe c (hpr c hc)

theorem splitRest_build (hostOk netlocOk : List Char → Bool)
    {S N Y : List Char}
    (hNd : ∀ c ∈ N, isNetlocDelim c = false)
    (hb1 : (N.contains '[' != N.contains ']') = false)
    (hb2 : (N.contains '[' && N.contains ']' &&
      !hostOk (bracketedHost N)) = false)
    (hcn : checknetloc netlocOk N = true)
    (hYf : '#' ∉ Y) (hYq : '?' ∉ Y)
    (hYh : Y = [] ∨ Y.head? = some '/') :
    splitRest hostOk netlocOk S ('/' :: '/' :: (N ++ Y)) =
      some ⟨S, N, Y, [], []⟩ := by
  have hYd : Y = [] ∨ ∃ c0, Y.head? = some c0 ∧ isNetlocDelim c0 = true := by
    rcases hYh with h | h
    · exact Or.inl h
    · exact Or.inr ⟨'/', h, by decide⟩
  unfold splitRest
  dsimp only
  rw [if_pos (show List.take 2 ('/' :: '/' :: (N ++ Y)) = ['/', '/'] from
    rfl)]
  rw [show List.drop 2 ('/' :: '/' :: (N ++ Y)) = N ++ Y from rfl]
  rw [splitnetloc_parts hNd hYd]
  dsimp only
  rw [if_neg (show ¬(N.contains '[' != N.contains ']') = true by
    rw [hb1]; exact Bool.false_ne_true)]
  rw [if_neg (show ¬(N.contains '[' && N.contains ']' &&
      !hostOk (bracketedHost N)) = true by
    rw [hb2]; exact Bool.false_ne_true)]
  rw [splitFragQuery_of_no_marks hYf hYq]
  rw [if_pos hcn]

theorem urlunsplit_netloc_form {S N Y : List Char} (hN : N ≠ [])
    (hYh : Y = [] ∨ Y.head? = some '/') :
    urlunsplit S N Y [] [] =
      if S ≠ [] then S ++ ':' :: ('/' :: '/' :: (N ++ Y))
      else '/' :: '/' :: (N ++ Y) := by
  unfold urlunsplit
  dsimp only
  rw [if_pos (Or.inl hN)]
  have hc2 : ¬(Y ≠ [] ∧ Y.head? ≠ some '/') := by
    rcases hYh with h | h
    · intro hc
      exact hc.1 h
    · intro hc
      exact hc.2 h
  rw [if_neg hc2]
  simp

theorem urlsplit_build_netloc {hostOk netlocOk : List Char → Bool}
    {S N Y : List Char} (hN : N ≠ [])
    (hS : S = [] ∨ ((∃ c0 r0, S = c0 :: r0 ∧ isAsciiAlpha c0 = true) ∧
      S.all isSchemeChar = true ∧ S.map asciiLower = S))
    (hNd : ∀ c ∈ N, isNetlocDelim c = false)
    (hNu : ∀ c ∈ N, isUnsafeUrlByte c = false)
    (hb1 : (N.contains '[' != N.contains ']') = false)
    (hb2 : (N.contains '[' && N.contains ']' &&
      !hostOk (bracketedHost N)) = false)
    (hcn : checknetloc netlocOk N = true)
    (hYf : '#' ∉ Y) (hYq : '?' ∉ Y)
    (hYh : Y = [] ∨ Y.head? = some '/')
    (hYu : ∀ c ∈ Y, isUnsafeUrlByte c = false) :
    urlsplit hostOk netlocOk [] (urlunsplit S N Y [] []) =
      some ⟨S, N, Y, [], []⟩ := by
  have hu1 : ∀ c ∈ '/' :: '/' :: (N ++ Y), isUnsafeUrlByte c = false := by
    intro c hc
    simp only [List.mem_cons, List.mem_append] at hc
    rcases hc with rfl | rfl | hc | hc
    · decide
    · decide
    · exact hNu c hc
    · exact hYu c hc
  rw [urlunsplit_netloc_form hN hYh]
  rcases hS with hS | ⟨⟨c0, r0, hS0, ha⟩, hall, hmap⟩
  · subst hS
    rw [if_neg (by simp)]
    have hstrip : stripUrl ('/' :: '/' :: (N ++ Y)) =
        '/' :: '/' :: (N ++ Y) := by
      refine stripUrl_eq_self hu1 ?_
      intro c hc
      cases hc
      decide
    have hdet : detectScheme (stripUrl ('/' :: '/' :: (N ++ Y))) = none := by
      rw [hstrip]
      exact detectScheme_slash _
    rw [urlsplit_none_scheme hdet, hstrip]
    exact splitRest_build hostOk netlocOk hNd hb1 hb2 hcn hYf hYq hYh
  · have hSne : S ≠ [] := by
      rw [hS0]
      exact List.cons_ne_nil _ _
    rw [if_pos hSne]
    have hvu : ∀ c ∈ S ++ ':' :: ('/' :: '/' :: (N ++ Y)),
        isUnsafeUrlByte c = false := by
      intro c hc
      rcases List.mem_append.mp hc with hc | hc
      · exact isSchemeChar_not_unsafe ((List.all_eq_true.mp hall) c hc)
      · rcases List.mem_cons.mp hc with rfl | hc
        · decide
        · exact hu1 c hc
    have hstrip : stripUrl (S ++ ':' :: ('/' :: '/' :: (N ++ Y))) =
        S ++ ':' :: ('/' :: '/' :: (N ++ Y)) := by
      refine stripUrl_eq_self hvu ?_
      intro c hc
      rw [hS0] at hc
      rw [List.cons_append] at hc
      cases hc
      have h65 : 32 < c0.toNat := by
        rcases isAsciiAlpha_iff.mp ha with hr | hr <;> omega
      exact isC0OrSpace_false_of_gt h65
    have hdet : detectScheme (stripUrl (S ++ ':' :: ('/' :: '/' ::
        (N ++ Y)))) = some (S, '/' :: '/' :: (N ++ Y)) := by
      rw [hstrip, hS0]
      have hall2 : (c0 :: r0).all isSchemeChar = true := by
        rw [← hS0]
        exact hall
      rw [detectScheme_valid_parts ('/' :: '/' :: (N ++ Y)) ha hall2]
      have hmap2 : (c0 :: r0).map asciiLower = c0 :: r0 := by
        rw [← hS0]
        exact hmap
      rw [hmap2]
    rw [urlsplit_some_scheme hdet]
    exact splitRest_build hostOk netlocOk hNd hb1 hb2 hcn hYf hYq hYh

/-- **C5** (corrected). `_normalize_url` (`src/sitemap_generator.py:84-96`)
really does erase the query and the fragment: appending `#...` or `?...` to
any URL string never changes the normalization result.  Idempotency, however,
holds only for URLs whose parse produces a nonempty authority (in particular
for every `http(s)://host/...` URL the crawler works with): normalizing the
output of `normalize_url` returns it unchanged whenever `urlparse` gave the
input a nonempty `netloc`.  For authority-free URLs idempotency fails, see
the counterexample `normalize_url_not_idempotent`. -/
theorem normalize_url_fragment_query_idempotent
    (hostOk netlocOk : List Char → Bool) :
    (∀ u w, normalize_url hostOk netlocOk (u ++ '#' :: w) =
      normalize_url hostOk netlocOk u) ∧
    (∀ u w, normalize_url hostOk netlocOk (u ++ '?' :: w) =
      normalize_url hostOk netlocOk u) ∧
    (∀ u p v, urlparse hostOk netlocOk [] u = some p → p.netloc ≠ [] →
      normalize_url hostOk netlocOk u = some v →
      normalize_url hostOk netlocOk v = some v) := by
  refine ⟨fun u w => normalize_url_append_mark hostOk netlocOk u w
      (Or.inl rfl),
    fun u w => normalize_url_append_mark hostOk netlocOk u w (Or.inr rfl),
    ?_⟩
  intro u p v hup hnp hnv
  unfold urlparse at hup
  obtain ⟨sp, hsp, hfp⟩ := Option.map_eq_some'.mp hup
  have hnet : sp.netloc = p.netloc := congrArg UrlParts.netloc hfp
  have hn2 : sp.netloc ≠ [] := by
    rw [hnet]
    exact hnp
  obtain ⟨hSf, hNu, hPu, hNd, hb1, hb2, hcn, hPf, hPq, hPh⟩ :=
    urlsplit_netloc_inv hsp hn2
  have hYsub : ∀ c, c ∈ normPathParams sp.scheme sp.path → c ∈ sp.path := by
    intro c hc
    rcases normPathParams_shape sp.scheme sp.path with hs | hs
    · rw [← hs]
      exact hc
    · rw [hs]
      exact List.mem_append_left _ hc
  have hYf : '#' ∉ normPathParams sp.scheme sp.path :=
    fun hc => hPf (hYsub _ hc)
  have hYq : '?' ∉ normPathParams sp.scheme sp.path :=
    fun hc => hPq (hYsub _ hc)
  have hYu : ∀ c ∈ normPathParams sp.scheme sp.path,
      isUnsafeUrlByte c = false := fun c hc => hPu c (hYsub c hc)
  have hYh : normPathParams sp.scheme sp.path = [] ∨
      (normPathParams sp.scheme sp.path).head? = some '/' := by
    cases hnp2 : normPathParams sp.scheme sp.path with
    | nil => exact Or.inl rfl
    | cons y0 yr =>
      right
      rcases normPathParams_shape sp.scheme sp.path with hs | hs
      · rw [hnp2] at hs
        rcases hPh with hP0 | hP0
        · rw [hP0] at hs
          cases hs
        · rw [← hs] at hP0
          exact hP0
      · rw [hnp2] at hs
        rcases hPh with hP0 | hP0
        · rw [hP0] at hs
          simp only [List.cons_append] at hs
          cases hs
        · rw [hs] at hP0
          simp only [List.cons_append, List.head?_cons,
            Option.some.injEq] at hP0
          rw [List.head?_cons, hP0]
  have hbuild := urlsplit_build_netloc (S := sp.scheme) (N := sp.netloc)
    hn2 hSf hNd hNu hb1 hb2 hcn hYf hYq hYh hYu
  unfold normalize_url urlparse at hnv
  rw [hsp] at hnv
  simp only [Option.map_some'] at hnv
  have hv : urlunsplit sp.scheme sp.netloc
      (normPathParams sp.scheme sp.path) [] [] = v := Option.some.inj hnv
  unfold normalize_url urlparse
  rw [← hv, hbuild]
  simp only [Option.map_some']
  show some (urlunsplit sp.scheme sp.netloc
      (normPathParams sp.scheme (normPathParams sp.scheme sp.path)) [] []) =
    some (urlunsplit sp.scheme sp.netloc
      (normPathParams sp.scheme sp.path) [] [])
  rw [normPathParams_idem]

theorem normalize_url_fragment_query_idempotent_witness :
    normalize_url anyHost anyHost "https://x.test/b".toList =
      some "https://x.test/b".toList :=
  (normalize_url_fragment_query_idempotent anyHost anyHost).2.2
    "https://x.test/b?q".toList
    ⟨"https".toList, "x.test".toList, "/b".toList, [], "q".toList, []⟩
    "https://x.test/b".toList (by decide) (by decide) (by decide)

/-- Counterexample to the literal C5 idempotency claim: on CPython 3.11,
`_normalize_url('/////a')` returns `'///a'` (the parse puts `///a` in the
path and the empty string in the netloc, and `urlunsplit` re-inserts only
one `//`), but `_normalize_url('///a')` returns `'/a'`, so normalizing an
already-normalized URL changed it. -/
theorem normalize_url_not_idempotent :
    normalize_url anyHost anyHost "/////a".toList = some "///a".toList ∧
    normalize_url anyHost anyHost "///a".toList = some "/a".toList ∧
    "///a".toList ≠ "/a".toList := by decide

theorem extract_links_list_entries_witness :
    (extract_links anyHost anyHost "www.example.com".toList
        ["/a".toList, "/a".toList, "#x".toList]
        "https://www.example.com/".toList).length ≤ 3 ∧
      ∀ u ∈ extract_links anyHost anyHost "www.example.com".toList
          ["/a".toList, "/a".toList, "#x".toList]
          "https://www.example.com/".toList,
        hostMatches anyHost anyHost "www.example.com".toList u = true :=
  extract_links_list_entries anyHost anyHost "www.example.com".toList
    "https://www.example.com/".toList
    ["/a".toList, "/a".toList, "#x".toList]

end SitemapGen
